import Mathlib

/-!
Shallow embedding of `artemis/general/nested_structures.py` (Python 2).

Python values are modelled by the inductive `PyVal`: leaves carry their
payload, containers carry their children.  A plain `dict` and an
`OrderedDict` are kept as association lists in iteration order (for a
plain dict the model's list order stands for the interpreter's iteration
order; the functions under study either rebuild dicts -- whose Python
equality is order-insensitive -- or sort the keys first, so no claim
depends on a particular plain-dict iteration order).  Python floats are
modelled opaquely by an integer payload (the module performs no float
arithmetic; a payload `n` stands for the float of exact value `n`).
`bool` is a subclass of `int` and `OrderedDict` a subclass of `dict`,
mirrored by `isSubclass`.
-/

inductive PyType where
  | int | float | str | bool | none | list | tuple | dict | odict | set | type
  deriving DecidableEq, Repr

inductive PyKey where
  | kint (n : Int)
  | kstr (s : String)
  deriving DecidableEq, Repr

/-- Python 2 `sorted` on dict keys: values of different types compare by
type name, so every `int` sorts before every `str`; ints compare
numerically and strings lexicographically. -/
def keyLE : PyKey → PyKey → Bool
  | .kint a, .kint b => decide (a ≤ b)
  | .kint _, .kstr _ => true
  | .kstr _, .kint _ => false
  | .kstr a, .kstr b => decide (a < b) || decide (a = b)

inductive PyVal where
  | vint (n : Int)
  | vfloat (n : Int)
  | vstr (s : String)
  | vbool (b : Bool)
  | vnone
  | vtype (t : PyType)
  | vlist (xs : List PyVal)
  | vtuple (xs : List PyVal)
  | vdict (es : List (PyKey × PyVal))
  | vodict (es : List (PyKey × PyVal))
  | vset (xs : List PyVal)
  deriving Repr

/-- The runtime type (`type(x)`) of a value. -/
def pytype : PyVal → PyType
  | .vint _ => .int
  | .vfloat _ => .float
  | .vstr _ => .str
  | .vbool _ => .bool
  | .vnone => .none
  | .vtype _ => .type
  | .vlist _ => .list
  | .vtuple _ => .tuple
  | .vdict _ => .dict
  | .vodict _ => .odict
  | .vset _ => .set

/-- Python subclass relation restricted to the modelled types:
`bool` is a subclass of `int`, `OrderedDict` of `dict`. -/
def isSubclass : PyType → PyType → Bool
  | .bool, .int => true
  | .odict, .dict => true
  | t, u => t == u

/-- `isinstance(v, cs)` for a tuple `cs` of classes. -/
def isinstance (v : PyVal) (cs : List PyType) : Bool :=
  cs.any (fun c => isSubclass (pytype v) c)

/-- `_primitive_containers = (list, tuple, dict, set)`; membership via
`isinstance` also admits `OrderedDict` (a `dict` subclass). -/
def _primitive_containers : List PyType := [.list, .tuple, .dict, .set]

/-- Association-list lookup on dict entries (Python `d[k]`). -/
def pyLookup (k : PyKey) : List (PyKey × PyVal) → Option PyVal
  | [] => Option.none
  | (k2, v) :: es => if k = k2 then some v else pyLookup k es

/-- Key lists of two `OrderedDict`s coincide (order-sensitively). -/
def sameKeyOrder (es fs : List (PyKey × PyVal)) : Bool :=
  es.map Prod.fst == fs.map Prod.fst

mutual

/-- Python `==` on the modelled values: numeric types (`int`, `float`,
`bool`) compare by numeric value across types; lists and tuples compare
pointwise and never to each other; plain dicts compare by key set and
value equality regardless of entry order; two `OrderedDict`s compare
order-sensitively, while an `OrderedDict` against a plain dict falls back
to order-insensitive dict equality; sets compare by mutual membership;
type objects are equal only to themselves. -/
def pyEq : PyVal → PyVal → Bool
  | .vint a, .vint b => a == b
  | .vint a, .vfloat b => a == b
  | .vint a, .vbool b => a == (if b then 1 else 0)
  | .vfloat a, .vint b => a == b
  | .vfloat a, .vfloat b => a == b
  | .vfloat a, .vbool b => a == (if b then 1 else 0)
  | .vbool a, .vint b => (if a then 1 else 0 : Int) == b
  | .vbool a, .vfloat b => (if a then 1 else 0 : Int) == b
  | .vbool a, .vbool b => a == b
  | .vstr a, .vstr b => a == b
  | .vnone, .vnone => true
  | .vtype a, .vtype b => a == b
  | .vlist xs, .vlist ys => pyEqList xs ys
  | .vtuple xs, .vtuple ys => pyEqList xs ys
  | .vdict es, .vdict fs => pyEqDict es fs
  | .vdict es, .vodict fs => pyEqDict es fs
  | .vodict es, .vdict fs => pyEqDict es fs
  | .vodict es, .vodict fs => pyEqDict es fs && sameKeyOrder es fs
  | .vset xs, .vset ys => pySubset xs ys && pySubset ys xs
  | _, _ => false
termination_by a b => (sizeOf a + sizeOf b, 0)

def pyEqList : List PyVal → List PyVal → Bool
  | [], [] => true
  | x :: xs, y :: ys => pyEq x y && pyEqList xs ys
  | _, _ => false
termination_by xs ys => (sizeOf xs + sizeOf ys, 0)

/-- Plain-dict equality: same number of entries and every entry of the
first is matched by key in the second (Python dicts have unique keys, so
with unique keys this is exactly equality of the key-to-value maps). -/
def pyEqDict (es fs : List (PyKey × PyVal)) : Bool :=
  es.length == fs.length && pyEqDictSub es fs
termination_by (sizeOf es + sizeOf fs, 1)

def pyEqDictSub : List (PyKey × PyVal) → List (PyKey × PyVal) → Bool
  | [], _ => true
  | (k, v) :: es, fs => pyFind k v fs && pyEqDictSub es fs
termination_by es fs => (sizeOf es + sizeOf fs, 0)

/-- Does `fs` map key `k` to a value Python-equal to `v`? -/
def pyFind (k : PyKey) (v : PyVal) : List (PyKey × PyVal) → Bool
  | [] => false
  | (k2, w) :: fs => if k = k2 then pyEq v w else pyFind k v fs
termination_by fs => (sizeOf v + sizeOf fs, 0)

def pySubset : List PyVal → List PyVal → Bool
  | [], _ => true
  | x :: xs, ys => pyMember x ys && pySubset xs ys
termination_by xs ys => (sizeOf xs + sizeOf ys, 0)

def pyMember (x : PyVal) : List PyVal → Bool
  | [] => false
  | y :: ys => pyEq x y || pyMember x ys
termination_by ys => (sizeOf x + sizeOf ys, 0)

end

/-- `set(gen)`: insert elements in generator order, skipping an element
that is `==` to one already present. -/
def mkSetAux (acc : List PyVal) : List PyVal → List PyVal
  | [] => acc
  | x :: xs => if pyMember x acc then mkSetAux acc xs else mkSetAux (acc ++ [x]) xs

def mkSet (xs : List PyVal) : PyVal :=
  .vset (mkSetAux [] xs)

/-- Insertion step of `sorted` on dict entries (comparison on keys only;
the keys of a Python dict are distinct, so stability is immaterial). -/
def insertSorted (p : PyKey × PyVal) : List (PyKey × PyVal) → List (PyKey × PyVal)
  | [] => [p]
  | q :: qs => if keyLE p.1 q.1 then p :: q :: qs else q :: insertSorted p qs

/-- `sorted(d.keys())` paired with the corresponding values: the entry
list reordered into ascending key order. -/
def sortByKey : List (PyKey × PyVal) → List (PyKey × PyVal)
  | [] => []
  | p :: ps => insertSorted p (sortByKey ps)

theorem sizeOf_insertSorted (p : PyKey × PyVal) (l : List (PyKey × PyVal)) :
    sizeOf (insertSorted p l) = 1 + sizeOf p + sizeOf l := by
  induction l with
  | nil => simp [insertSorted]
  | cons q qs ih =>
    by_cases h : keyLE p.1 q.1 = true
    · simp [insertSorted, h]
    · simp [insertSorted, h, ih]
      omega

theorem sizeOf_sortByKey (l : List (PyKey × PyVal)) :
    sizeOf (sortByKey l) = sizeOf l := by
  induction l with
  | nil => simp [sortByKey]
  | cons p ps ih =>
    simp [sortByKey, sizeOf_insertSorted, ih]

mutual

/-- `get_meta_object(data_object, containers)`: a value classified as a
container by `containers` is rebuilt with the sub-schemas of its children
(a `set` through the `set(...)` constructor, which drops `==`-duplicate
element schemas); any other value is replaced by its type object.  The
recursive calls in the source pass no `containers` argument, so children
are always classified with the default `_primitive_containers`.  A value
that `containers` classifies as a container but that is none of
list/tuple/set/dict falls through both `isinstance` branches and the
function implicitly returns `None`. -/
def get_meta_object (v : PyVal) (containers : List PyType) : PyVal :=
  if isinstance v containers then
    match v with
    | .vlist xs => .vlist (gmoList xs)
    | .vtuple xs => .vtuple (gmoList xs)
    | .vset xs => mkSet (gmoList xs)
    | .vdict es => .vdict (gmoEntries es)
    | .vodict es => .vodict (gmoEntries es)
    | _ => .vnone
  else .vtype (pytype v)
termination_by sizeOf v

def gmoList : List PyVal → List PyVal
  | [] => []
  | x :: xs => get_meta_object x _primitive_containers :: gmoList xs
termination_by xs => sizeOf xs

def gmoEntries : List (PyKey × PyVal) → List (PyKey × PyVal)
  | [] => []
  | (k, x) :: es => (k, get_meta_object x _primitive_containers) :: gmoEntries es
termination_by es => sizeOf es

end

mutual

/-- `get_leaf_values(data_object, containers)`: lists and tuples are
concatenated in element order, an `OrderedDict` over its values in
insertion order, a plain dict over its values in sorted-key order; any
other value classified as a container (in particular a `set`) raises.  A
non-container is returned as the single leaf.  As in the source, the
recursive calls pass no `containers` argument and hence use the default
`_primitive_containers`. -/
def get_leaf_values (v : PyVal) (containers : List PyType) : Except String (List PyVal) :=
  if isinstance v containers then
    match v with
    | .vlist xs => glvList xs
    | .vtuple xs => glvList xs
    | .vodict es => glvEntries es
    | .vdict es => glvEntries (sortByKey es)
    | _ => .error "Have no way to consistently extract leaf values"
  else .ok [v]
termination_by sizeOf v
decreasing_by
  all_goals simp_wf
  all_goals try rw [sizeOf_sortByKey]
  all_goals omega

def glvList : List PyVal → Except String (List PyVal)
  | [] => .ok []
  | x :: xs =>
    match get_leaf_values x _primitive_containers with
    | .error e => .error e
    | .ok a =>
      match glvList xs with
      | .error e => .error e
      | .ok b => .ok (a ++ b)
termination_by xs => sizeOf xs

def glvEntries : List (PyKey × PyVal) → Except String (List PyVal)
  | [] => .ok []
  | (_, x) :: es =>
    match get_leaf_values x _primitive_containers with
    | .error e => .error e
    | .ok a =>
      match glvEntries es with
      | .error e => .error e
      | .ok b => .ok (a ++ b)
termination_by es => sizeOf es

end

/-- Error kinds raised by `_fill_meta_object` (the source raises
`TypeError` with distinct messages; the spec names the three kinds
`SchemaMismatchError`, `InsufficientDataError` and `ExcessDataError`). -/
inductive FillError where
  | schemaMismatch (expected : PyVal) (actual : PyType)
  | insufficientData
  | excessData
  deriving Repr

/-- `meta_object is type(next_data)`: identity of the schema leaf with the
runtime type object of the pulled value; false whenever the schema leaf is
not a type object at all. -/
def tagIs : PyVal → PyType → Bool
  | .vtype t, u => t == u
  | _, _ => false

mutual

/-- The body of `_fill_meta_object(meta_object, data_iteratable, ...)`
before the trailing `assert_fully_used` check (lines 206-222 of the
source).  The shared iterator is modelled by threading the list of
remaining values: the result pairs the filled object with the values left
over.  Containers are filled child by child (set/list/tuple in element
order, `OrderedDict` in insertion order, plain dict in sorted-key order, a
set being rebuilt through the `set(...)` constructor).  Every recursive
call in the source passes `assert_fully_used=False`, under which
`_fill_meta_object` is exactly this body, so the recursive calls go
straight to it.  A non-container consumes one value, checking its runtime
type against the tag when `check_types` is set. -/
def fillBody (meta : PyVal) (data : List PyVal) (check_types : Bool) :
    Except FillError (PyVal × List PyVal) :=
  match meta with
  | .vlist xs =>
    match fillList xs data check_types with
    | .ok (ys, rest) => .ok (.vlist ys, rest)
    | .error e => .error e
  | .vtuple xs =>
    match fillList xs data check_types with
    | .ok (ys, rest) => .ok (.vtuple ys, rest)
    | .error e => .error e
  | .vset xs =>
    match fillList xs data check_types with
    | .ok (ys, rest) => .ok (mkSet ys, rest)
    | .error e => .error e
  | .vodict es =>
    match fillEntries es data check_types with
    | .ok (fs, rest) => .ok (.vodict fs, rest)
    | .error e => .error e
  | .vdict es =>
    match fillEntries (sortByKey es) data check_types with
    | .ok (fs, rest) => .ok (.vdict fs, rest)
    | .error e => .error e
  | t =>
    match data with
    | [] => .error .insufficientData
    | d :: rest =>
      if check_types && !(tagIs t (pytype d)) then
        .error (.schemaMismatch t (pytype d))
      else .ok (d, rest)
termination_by sizeOf meta
decreasing_by
  all_goals simp_wf
  all_goals try rw [sizeOf_sortByKey]
  all_goals omega

def fillList : List PyVal → List PyVal → Bool →
    Except FillError (List PyVal × List PyVal)
  | [], data, _ => .ok ([], data)
  | x :: xs, data, ct =>
    match fillBody x data ct with
    | .error e => .error e
    | .ok (w, rest) =>
      match fillList xs rest ct with
      | .error e => .error e
      | .ok (ws, rest2) => .ok (w :: ws, rest2)
termination_by xs _ _ => sizeOf xs

def fillEntries : List (PyKey × PyVal) → List PyVal → Bool →
    Except FillError (List (PyKey × PyVal) × List PyVal)
  | [], data, _ => .ok ([], data)
  | (k, x) :: es, data, ct =>
    match fillBody x data ct with
    | .error e => .error e
    | .ok (w, rest) =>
      match fillEntries es rest ct with
      | .error e => .error e
      | .ok (ws, rest2) => .ok ((k, w) :: ws, rest2)
termination_by es _ _ => sizeOf es

end

/-- `_fill_meta_object(meta_object, data_iteratable, assert_fully_used,
check_types)`: the body above followed, when `assert_fully_used` is set,
by the trailing-exhaustion check of lines 224-229 (one further `next()`
that must raise `StopIteration`, else `ExcessDataError`). -/
def _fill_meta_object (meta : PyVal) (data : List PyVal)
    (assert_fully_used : Bool) (check_types : Bool) :
    Except FillError (PyVal × List PyVal) :=
  match fillBody meta data check_types with
  | .error e => .error e
  | .ok (w, rest) =>
    if assert_fully_used then
      match rest with
      | [] => .ok (w, [])
      | _ :: _ => .error .excessData
    else .ok (w, rest)

/-- The `NestedType` wrapper around a nested type descriptor. -/
structure NestedType where
  meta_object : PyVal

/-- `is_type_for`: Python equality of the derived meta object with the
held one. -/
def NestedType.is_type_for (t : NestedType) (v : PyVal) : Bool :=
  pyEq (get_meta_object v _primitive_containers) t.meta_object

/-- `NestedType.from_data(data_object, containers)`. -/
def NestedType.from_data (v : PyVal) (containers : List PyType) : NestedType :=
  ⟨get_meta_object v containers⟩

/-- `expand_from_leaves(leaves, check_types)`: fills the held meta object
with `assert_fully_used` left at its default `True`. -/
def NestedType.expand_from_leaves (t : NestedType) (leaves : List PyVal)
    (check_types : Bool) : Except FillError (PyVal × List PyVal) :=
  _fill_meta_object t.meta_object leaves true check_types

/-- `flatten_nested_object` accumulates an `OrderedDict` directory listing
but contains no `return` statement on any path: a call that completes
normally falls off the end of the function body and yields Python `None`
(modelled `Except.ok Option.none`).  When the argument is `==` to one of
the four container *classes* (the membership test on line 78 is
`data_object in containers`, comparing against the classes themselves),
the `isinstance` tests on a type object are both false and the
`Unidentified container type` exception on line 91 is raised.  The
recursive call on line 82 would require a value equal to a container
class that is itself a list or tuple instance, so it is unreachable and
the model needs no recursion. -/
def flatten_nested_object (v : PyVal) : Except String (Option PyVal) :=
  if pyMember v [.vtype .list, .vtype .tuple, .vtype .dict, .vtype .set] then
    Except.error "Unidentified container type"
  else
    Except.ok Option.none

mutual

/-- Number of leaf positions of a schema, counted in the order
`_fill_meta_object` consumes values (one per non-container node). -/
def leafCount : PyVal → Nat
  | .vlist xs => leafCountList xs
  | .vtuple xs => leafCountList xs
  | .vset xs => leafCountList xs
  | .vdict es => leafCountEntries es
  | .vodict es => leafCountEntries es
  | _ => 1
termination_by v => sizeOf v

def leafCountList : List PyVal → Nat
  | [] => 0
  | x :: xs => leafCount x + leafCountList xs
termination_by xs => sizeOf xs

def leafCountEntries : List (PyKey × PyVal) → Nat
  | [] => 0
  | (_, x) :: es => leafCount x + leafCountEntries es
termination_by es => sizeOf es

end

mutual

/-- The schema's leaf nodes listed in the order `_fill_meta_object`
consumes values for them: element order for list/tuple/set, insertion
order for an `OrderedDict`, sorted-key order for a plain dict. -/
def fillTags : PyVal → List PyVal
  | .vlist xs => fillTagsList xs
  | .vtuple xs => fillTagsList xs
  | .vset xs => fillTagsList xs
  | .vodict es => fillTagsEntries es
  | .vdict es => fillTagsEntries (sortByKey es)
  | t => [t]
termination_by v => sizeOf v
decreasing_by
  all_goals simp_wf
  all_goals try rw [sizeOf_sortByKey]
  all_goals omega

def fillTagsList : List PyVal → List PyVal
  | [] => []
  | x :: xs => fillTags x ++ fillTagsList xs
termination_by xs => sizeOf xs

def fillTagsEntries : List (PyKey × PyVal) → List PyVal
  | [] => []
  | (_, x) :: es => fillTags x ++ fillTagsEntries es
termination_by es => sizeOf es

end

mutual

/-- Does the value contain a `set` anywhere on a path of default
containers?  (`get_leaf_values` reaches every such position.) -/
def hasSet : PyVal → Bool
  | .vset _ => true
  | .vlist xs => hasSetList xs
  | .vtuple xs => hasSetList xs
  | .vdict es => hasSetEntries es
  | .vodict es => hasSetEntries es
  | _ => false
termination_by v => sizeOf v

def hasSetList : List PyVal → Bool
  | [] => false
  | x :: xs => hasSet x || hasSetList xs
termination_by xs => sizeOf xs

def hasSetEntries : List (PyKey × PyVal) → Bool
  | [] => false
  | (_, x) :: es => hasSet x || hasSetEntries es
termination_by es => sizeOf es

end

/-- Keys of a dict entry list are pairwise distinct (every Python dict
satisfies this). -/
def keysDistinct : List (PyKey × PyVal) → Bool
  | [] => true
  | (k, _) :: es => !(es.any (fun q => q.1 == k)) && keysDistinct es

/-- Elements of a set are pairwise non-`==` (every Python set satisfies
this). -/
def setDistinct : List PyVal → Bool
  | [] => true
  | x :: xs => !(pyMember x xs) && setDistinct xs

mutual

/-- Python-representability of a modelled value: dict keys distinct and
set elements pairwise non-equal, recursively. -/
def WF : PyVal → Bool
  | .vlist xs => WFList xs
  | .vtuple xs => WFList xs
  | .vset xs => setDistinct xs && WFList xs
  | .vdict es => keysDistinct es && WFEntries es
  | .vodict es => keysDistinct es && WFEntries es
  | _ => true
termination_by v => sizeOf v

def WFList : List PyVal → Bool
  | [] => true
  | x :: xs => WF x && WFList xs
termination_by xs => sizeOf xs

def WFEntries : List (PyKey × PyVal) → Bool
  | [] => true
  | (_, x) :: es => WF x && WFEntries es
termination_by es => sizeOf es

end

mutual

/-- Claim C2's shape relation, read off the spec's definition of shape
(`container kind, length, key set`): `sameShape s v` holds when, at every
nesting level, the schema `s` has the same container kind as `v`, the
same length for sequences, the same keys for mappings, and the same
cardinality for sets (set elements carry no positions, so only the
cardinality is compared there); a leaf position of `v` may hold any
non-container schema entry. -/
def sameShape : PyVal → PyVal → Bool
  | .vlist ss, .vlist xs => sameShapeList ss xs
  | .vtuple ss, .vtuple xs => sameShapeList ss xs
  | .vdict ss, .vdict es => sameShapeMap ss es
  | .vodict ss, .vodict es => sameShapeMap ss es
  | .vset ss, .vset xs => ss.length == xs.length
  | s, v => !(isinstance s _primitive_containers) && !(isinstance v _primitive_containers)
termination_by s v => sizeOf s + sizeOf v

def sameShapeList : List PyVal → List PyVal → Bool
  | [], [] => true
  | s :: ss, x :: xs => sameShape s x && sameShapeList ss xs
  | _, _ => false
termination_by ss xs => sizeOf ss + sizeOf xs

def sameShapeMap : List (PyKey × PyVal) → List (PyKey × PyVal) → Bool
  | [], [] => true
  | (k1, s) :: ss, (k2, x) :: es => k1 == k2 && sameShape s x && sameShapeMap ss es
  | _, _ => false
termination_by ss es => sizeOf ss + sizeOf es

end

mutual

/-- Amended shape relation: as `sameShape`, except that a set schema is
only required to have cardinality at most that of the set it was derived
from (the `set(...)` constructor drops duplicate element schemas). -/
def sameShapeLe : PyVal → PyVal → Bool
  | .vlist ss, .vlist xs => sameShapeLeList ss xs
  | .vtuple ss, .vtuple xs => sameShapeLeList ss xs
  | .vdict ss, .vdict es => sameShapeLeMap ss es
  | .vodict ss, .vodict es => sameShapeLeMap ss es
  | .vset ss, .vset xs => decide (ss.length ≤ xs.length)
  | s, v => !(isinstance s _primitive_containers) && !(isinstance v _primitive_containers)
termination_by s v => sizeOf s + sizeOf v

def sameShapeLeList : List PyVal → List PyVal → Bool
  | [], [] => true
  | s :: ss, x :: xs => sameShapeLe s x && sameShapeLeList ss xs
  | _, _ => false
termination_by ss xs => sizeOf ss + sizeOf xs

def sameShapeLeMap : List (PyKey × PyVal) → List (PyKey × PyVal) → Bool
  | [], [] => true
  | (k1, s) :: ss, (k2, x) :: es => k1 == k2 && sameShapeLe s x && sameShapeLeMap ss es
  | _, _ => false
termination_by ss es => sizeOf ss + sizeOf es

end

mutual

/-- Claim C3's structural conformance, read off the spec's data model:
`conforms v s` holds when `v` has the same shape as the schema `s` (the
spec's shape is container kind, length and key *set*; `dict` and
`OrderedDict` are both its Mapping kind) and every leaf of `v` has
exactly the runtime type recorded by the tag at the same structural
position.  A set value conforms when its derived element-schema set
equals the schema's element set. -/
def conforms : PyVal → PyVal → Bool
  | .vlist xs, .vlist ss => conformsList xs ss
  | .vtuple xs, .vtuple ss => conformsList xs ss
  | .vdict es, .vdict ss => conformsMap es ss
  | .vdict es, .vodict ss => conformsMap es ss
  | .vodict es, .vdict ss => conformsMap es ss
  | .vodict es, .vodict ss => conformsMap es ss
  | .vset xs, .vset ss => pyEq (mkSet (gmoList xs)) (.vset ss)
  | v, s =>
    if isinstance v _primitive_containers then false
    else tagIs s (pytype v)
termination_by v s => (sizeOf v + sizeOf s, 0)

def conformsList : List PyVal → List PyVal → Bool
  | [], [] => true
  | x :: xs, s :: ss => conforms x s && conformsList xs ss
  | _, _ => false
termination_by xs ss => (sizeOf xs + sizeOf ss, 0)

/-- Same key set and per-key conformance (mirrors the structure of
`pyEqDict`). -/
def conformsMap (es ss : List (PyKey × PyVal)) : Bool :=
  es.length == ss.length && conformsMapSub es ss
termination_by (sizeOf es + sizeOf ss, 1)

def conformsMapSub : List (PyKey × PyVal) → List (PyKey × PyVal) → Bool
  | [], _ => true
  | (k, v) :: es, ss => conformsFind k v ss && conformsMapSub es ss
termination_by es ss => (sizeOf es + sizeOf ss, 0)

def conformsFind (k : PyKey) (v : PyVal) : List (PyKey × PyVal) → Bool
  | [] => false
  | (k2, s) :: ss => if k = k2 then conforms v s else conformsFind k v ss
termination_by ss => (sizeOf v + sizeOf ss, 0)

end

mutual

/-- Amended conformance for C3: like `conforms`, but an `OrderedDict`
schema is matched by an `OrderedDict` value only when the key order also
agrees, while a plain dict on either side is compared by key set alone
(this mirrors how Python equality compares the derived meta object with
the held one). -/
def conformsStrict : PyVal → PyVal → Bool
  | .vlist xs, .vlist ss => conformsStrictList xs ss
  | .vtuple xs, .vtuple ss => conformsStrictList xs ss
  | .vdict es, .vdict ss => conformsStrictMap es ss
  | .vdict es, .vodict ss => conformsStrictMap es ss
  | .vodict es, .vdict ss => conformsStrictMap es ss
  | .vodict es, .vodict ss => conformsStrictMap es ss && sameKeyOrder es ss
  | .vset xs, .vset ss => pyEq (mkSet (gmoList xs)) (.vset ss)
  | v, s =>
    if isinstance v _primitive_containers then false
    else tagIs s (pytype v)
termination_by v s => (sizeOf v + sizeOf s, 0)

def conformsStrictList : List PyVal → List PyVal → Bool
  | [], [] => true
  | x :: xs, s :: ss => conformsStrict x s && conformsStrictList xs ss
  | _, _ => false
termination_by xs ss => (sizeOf xs + sizeOf ss, 0)

def conformsStrictMap (es ss : List (PyKey × PyVal)) : Bool :=
  es.length == ss.length && conformsStrictMapSub es ss
termination_by (sizeOf es + sizeOf ss, 1)

def conformsStrictMapSub : List (PyKey × PyVal) → List (PyKey × PyVal) → Bool
  | [], _ => true
  | (k, v) :: es, ss => conformsStrictFind k v ss && conformsStrictMapSub es ss
termination_by es ss => (sizeOf es + sizeOf ss, 0)

def conformsStrictFind (k : PyKey) (v : PyVal) : List (PyKey × PyVal) → Bool
  | [] => false
  | (k2, s) :: ss => if k = k2 then conformsStrict v s else conformsStrictFind k v ss
termination_by ss => (sizeOf v + sizeOf ss, 0)

end

mutual

/-- Claim C7's notion of two values being structurally identical up to
mapping insertion history: leaves are the same value, sequences agree
pointwise, `OrderedDict`s agree entrywise in order, and a plain dict may
list the same entries in any insertion order (at any depth).  Sets are
outside the extraction contract and are not related. -/
inductive StructIdent : PyVal → PyVal → Prop where
  | leaf (v : PyVal) : isinstance v _primitive_containers = false →
      StructIdent v v
  | list (xs ys : List PyVal) : StructIdentList xs ys →
      StructIdent (.vlist xs) (.vlist ys)
  | tup (xs ys : List PyVal) : StructIdentList xs ys →
      StructIdent (.vtuple xs) (.vtuple ys)
  | odict (es fs : List (PyKey × PyVal)) : StructIdentEntries es fs →
      StructIdent (.vodict es) (.vodict fs)
  | dict (es es0 fs : List (PyKey × PyVal)) : StructIdentEntries es es0 →
      List.Perm es0 fs →
      StructIdent (.vdict es) (.vdict fs)

inductive StructIdentList : List PyVal → List PyVal → Prop where
  | nil : StructIdentList [] []
  | cons (x y : PyVal) (xs ys : List PyVal) : StructIdent x y →
      StructIdentList xs ys → StructIdentList (x :: xs) (y :: ys)

inductive StructIdentEntries : List (PyKey × PyVal) → List (PyKey × PyVal) → Prop where
  | nil : StructIdentEntries [] []
  | cons (k : PyKey) (v w : PyVal) (es fs : List (PyKey × PyVal)) :
      StructIdent v w → StructIdentEntries es fs →
      StructIdentEntries ((k, v) :: es) ((k, w) :: fs)

end

mutual

/-- Modelled from the spec (§4.2 and claim C9): `derive_schema` with the
recognized-kinds set in force at every recursion level, i.e. the body of
`get_meta_object` with every recursive call passing the same
`containers` argument. -/
def get_meta_object_spec (v : PyVal) (containers : List PyType) : PyVal :=
  if isinstance v containers then
    match v with
    | .vlist xs => .vlist (gmoSpecList xs containers)
    | .vtuple xs => .vtuple (gmoSpecList xs containers)
    | .vset xs => mkSet (gmoSpecList xs containers)
    | .vdict es => .vdict (gmoSpecEntries es containers)
    | .vodict es => .vodict (gmoSpecEntries es containers)
    | _ => .vnone
  else .vtype (pytype v)
termination_by sizeOf v

def gmoSpecList : List PyVal → List PyType → List PyVal
  | [], _ => []
  | x :: xs, cs => get_meta_object_spec x cs :: gmoSpecList xs cs
termination_by xs _ => sizeOf xs

def gmoSpecEntries : List (PyKey × PyVal) → List PyType → List (PyKey × PyVal)
  | [], _ => []
  | (k, x) :: es, cs => (k, get_meta_object_spec x cs) :: gmoSpecEntries es cs
termination_by es _ => sizeOf es

end

/-!
Object-graph model for `flatten_struct`.  The memo of `flatten_struct` is
keyed by `id(struct)`, i.e. by object *identity*, which is invisible at
the value level; values are therefore modelled as nodes of a heap
addressed by identity, and a shared sub-object is a node referenced from
two places.  The model fixes the source's default arguments
`custom_handlers={}` (custom handlers never fire) and
`break_into_objects=True`, and fixes `detect_duplicates=True`, which is
the mode claim C8 is about (with `detect_duplicates=False` the function
does not terminate on cyclic object graphs, which a total model cannot
express).  The `Already Seen object at hex(id)` marker string is modelled
by the constructor `FlatRes.seen` carrying the id. -/

inductive FNode where
  /-- A value with `isinstance(struct, primatives)` true. -/
  | fleaf (p : PyVal)
  /-- A list or tuple of (identities of) elements; path piece `[i]`. -/
  | flist (children : List Nat)
  /-- A dict with string keys; path piece `['k']`. -/
  | fdict (entries : List (String × Nat))
  /-- A non-primitive object with a `__dict__`; path piece `.attr`. -/
  | fobj (attrs : List (String × Nat))
  /-- `None`, or any value with no `__dict__`: contributes nothing. -/
  | fplain
  deriving Repr

inductive FlatRes where
  | val (p : PyVal)
  | seen (i : Nat)
  deriving Repr

abbrev Heap := List (Nat × FNode)

def heapFind (h : Heap) (i : Nat) : Option FNode :=
  match h with
  | [] => Option.none
  | (j, n) :: rest => if j == i then some n else heapFind rest i

mutual

/-- One call of `flatten_struct(struct, memo=memo)` on the object with
identity `i`: if the identity is in the memo, return the single
already-seen entry; otherwise record the identity (this happens *before*
the primitives check) and dispatch on the object: primitives yield
themselves, lists/dicts/attribute-bearing objects recurse into their
children with the shared memo threaded through, a bare object yields
nothing.  The structural `fuel` argument only bounds the recursion depth
for Lean's sake; `flatten_struct` supplies enough for it never to run
out. -/
def flattenObj (h : Heap) : Nat → Nat → List Nat →
    List (Option String × FlatRes) × List Nat
  | fuel, i, memo =>
    if i ∈ memo then ([(Option.none, .seen i)], memo)
    else
      match fuel with
      | 0 => ([], memo)
      | fuel + 1 =>
        match heapFind h i with
        | some (.fleaf p) => ([(Option.none, .val p)], i :: memo)
        | some (.flist cs) => flattenChildren h fuel 0 cs (i :: memo)
        | some (.fdict es) => flattenKeyed h fuel "['" "']" es (i :: memo)
        | some (.fobj as) => flattenKeyed h fuel "." "" as (i :: memo)
        | some .fplain => ([], i :: memo)
        | Option.none => ([], i :: memo)

def flattenChildren (h : Heap) (fuel : Nat) (idx : Nat) :
    List Nat → List Nat → List (Option String × FlatRes) × List Nat
  | [], memo => ([], memo)
  | c :: cs, memo =>
    let r := flattenObj h fuel c memo
    let tagged := r.1.map
      (fun e => (some ("[" ++ toString idx ++ "]" ++ e.1.getD ""), e.2))
    let rest := flattenChildren h fuel (idx + 1) cs r.2
    (tagged ++ rest.1, rest.2)

def flattenKeyed (h : Heap) (fuel : Nat) (pre post : String) :
    List (String × Nat) → List Nat → List (Option String × FlatRes) × List Nat
  | [], memo => ([], memo)
  | (k, c) :: es, memo =>
    let r := flattenObj h fuel c memo
    let tagged := r.1.map
      (fun e => (some (pre ++ k ++ post ++ e.1.getD ""), e.2))
    let rest := flattenKeyed h fuel pre post es r.2
    (tagged ++ rest.1, rest.2)

end

/-- Top-level `flatten_struct(struct)` with the default `memo=None`: a
fresh memo, and a fuel budget that covers every heap node plus one. -/
def flatten_struct (h : Heap) (root : Nat) : List (Option String × FlatRes) :=
  (flattenObj h (h.length + 1) root []).1

/-!  Generic helpers for induction over the nested `PyVal` type. -/

def sizeOfStrongInduction {α : Type} [SizeOf α] (P : α → Prop)
    (h : ∀ v, (∀ w, sizeOf w < sizeOf v → P w) → P v) : ∀ v, P v :=
  fun v => h v (fun w hw => sizeOfStrongInduction P h w)
termination_by v => sizeOf v
decreasing_by exact hw

theorem perm_insertSorted (p : PyKey × PyVal) (l : List (PyKey × PyVal)) :
    List.Perm (insertSorted p l) (p :: l) := by
  induction l with
  | nil => simp [insertSorted]
  | cons q qs ih =>
    by_cases h : keyLE p.1 q.1 = true
    · simp [insertSorted, h]
    · simp only [insertSorted, h]
      exact List.Perm.trans (List.Perm.cons q ih) (List.Perm.swap p q qs)

theorem perm_sortByKey (l : List (PyKey × PyVal)) :
    List.Perm (sortByKey l) l := by
  induction l with
  | nil => simp [sortByKey]
  | cons p ps ih =>
    exact List.Perm.trans (perm_insertSorted p (sortByKey ps)) (List.Perm.cons p ih)

theorem mem_sortByKey {q : PyKey × PyVal} {l : List (PyKey × PyVal)}
    (h : q ∈ sortByKey l) : q ∈ l :=
  (perm_sortByKey l).mem_iff.mp h

theorem sizeOf_lt_of_mem_list {x : PyVal} {xs : List PyVal} (h : x ∈ xs) :
    sizeOf x < sizeOf xs :=
  List.sizeOf_lt_of_mem h

theorem sizeOf_lt_of_mem_entries {k : PyKey} {x : PyVal}
    {es : List (PyKey × PyVal)} (h : (k, x) ∈ es) : sizeOf x < sizeOf es := by
  have h1 : sizeOf (k, x) ≤ sizeOf es := le_of_lt (List.sizeOf_lt_of_mem h)
  have h2 : sizeOf x < sizeOf (k, x) := by simp
  omega

/-- Claim C10: `flatten_nested_object` accumulates its directory listing
but has no `return` statement on any path, so a call either returns
Python `None` (every normal completion) or raises the
`Unidentified container type` exception (only when the argument equals
one of the four container classes themselves); no call ever yields the
documented depth-first listing. -/
theorem flatten_nested_object_returns_none (v : PyVal) :
    flatten_nested_object v = Except.ok Option.none ∨
    flatten_nested_object v = Except.error "Unidentified container type" := by
  unfold flatten_nested_object
  by_cases h : pyMember v [.vtype .list, .vtype .tuple, .vtype .dict, .vtype .set] = true
  · simp [h]
  · simp [h]

/-- The message of the exception `get_leaf_values` raises on a container
it cannot order (the spec's `OrderingError`). -/
def orderingMsg : String := "Have no way to consistently extract leaf values"

theorem any_of_perm {α : Type} (f : α → Bool) {l1 l2 : List α}
    (h : List.Perm l1 l2) : l1.any f = l2.any f := by
  induction h with
  | nil => rfl
  | cons x _ ih => simp [List.any_cons, ih]
  | swap x y l => cases hx : f x <;> cases hy : f y <;> simp [List.any_cons, hx, hy]
  | trans _ _ ih1 ih2 => rw [ih1, ih2]

theorem all_of_perm {α : Type} (f : α → Bool) {l1 l2 : List α}
    (h : List.Perm l1 l2) : l1.all f = l2.all f := by
  induction h with
  | nil => rfl
  | cons x _ ih => simp [List.all_cons, ih]
  | swap x y l => cases hx : f x <;> cases hy : f y <;> simp [List.all_cons, hx, hy]
  | trans _ _ ih1 ih2 => rw [ih1, ih2]

theorem hasSetEntries_eq_any (es : List (PyKey × PyVal)) :
    hasSetEntries es = es.any (fun q => hasSet q.2) := by
  induction es with
  | nil => simp [hasSetEntries]
  | cons q es ih =>
    match q with
    | (k, x) => simp [hasSetEntries, ih]

theorem hasSetEntries_sortByKey (es : List (PyKey × PyVal)) :
    hasSetEntries (sortByKey es) = hasSetEntries es := by
  rw [hasSetEntries_eq_any, hasSetEntries_eq_any]
  exact any_of_perm _ (perm_sortByKey es)

theorem glvList_hasSet (xs : List PyVal)
    (ih : ∀ x ∈ xs,
      (hasSet x = true →
        get_leaf_values x _primitive_containers = .error orderingMsg) ∧
      (hasSet x = false →
        ∃ l, get_leaf_values x _primitive_containers = .ok l)) :
    (hasSetList xs = true → glvList xs = .error orderingMsg) ∧
    (hasSetList xs = false → ∃ l, glvList xs = .ok l) := by
  induction xs with
  | nil => simp [hasSetList, glvList]
  | cons x xs ihl =>
    have ihx := ih x (by simp)
    have ihrest := ihl (fun y hy => ih y (by simp [hy]))
    constructor
    · intro h
      rw [hasSetList] at h
      by_cases hx : hasSet x = true
      · rw [glvList, ihx.1 hx]
      · have hx0 : hasSet x = false := by revert hx; cases hasSet x <;> simp
        obtain ⟨l, hl⟩ := ihx.2 hx0
        have hrest : hasSetList xs = true := by
          rw [hx0] at h; simpa using h
        rw [glvList, hl, ihrest.1 hrest]
    · intro h
      rw [hasSetList] at h
      have hx0 : hasSet x = false := by
        revert h; cases hasSet x <;> simp
      have hrest : hasSetList xs = false := by
        rw [hx0] at h; simpa using h
      obtain ⟨l, hl⟩ := ihx.2 hx0
      obtain ⟨l2, hl2⟩ := ihrest.2 hrest
      exact ⟨l ++ l2, by rw [glvList, hl, hl2]⟩

theorem glvEntries_hasSet (es : List (PyKey × PyVal))
    (ih : ∀ k x, (k, x) ∈ es →
      (hasSet x = true →
        get_leaf_values x _primitive_containers = .error orderingMsg) ∧
      (hasSet x = false →
        ∃ l, get_leaf_values x _primitive_containers = .ok l)) :
    (hasSetEntries es = true → glvEntries es = .error orderingMsg) ∧
    (hasSetEntries es = false → ∃ l, glvEntries es = .ok l) := by
  induction es with
  | nil => simp [hasSetEntries, glvEntries]
  | cons q es ihl =>
    match q with
    | (k, x) =>
      have ihx := ih k x (by simp)
      have ihrest := ihl (fun k2 y hy => ih k2 y (by simp [hy]))
      constructor
      · intro h
        rw [hasSetEntries] at h
        by_cases hx : hasSet x = true
        · rw [glvEntries, ihx.1 hx]
        · have hx0 : hasSet x = false := by revert hx; cases hasSet x <;> simp
          obtain ⟨l, hl⟩ := ihx.2 hx0
          have hrest : hasSetEntries es = true := by
            rw [hx0] at h; simpa using h
          rw [glvEntries, hl, ihrest.1 hrest]
      · intro h
        rw [hasSetEntries] at h
        have hx0 : hasSet x = false := by
          revert h; cases hasSet x <;> simp
        have hrest : hasSetEntries es = false := by
          rw [hx0] at h; simpa using h
        obtain ⟨l, hl⟩ := ihx.2 hx0
        obtain ⟨l2, hl2⟩ := ihrest.2 hrest
        exact ⟨l ++ l2, by rw [glvEntries, hl, hl2]⟩

theorem glv_hasSet (v : PyVal) :
    (hasSet v = true →
      get_leaf_values v _primitive_containers = .error orderingMsg) ∧
    (hasSet v = false →
      ∃ l, get_leaf_values v _primitive_containers = .ok l) := by
  refine sizeOfStrongInduction (fun v =>
    (hasSet v = true →
      get_leaf_values v _primitive_containers = .error orderingMsg) ∧
    (hasSet v = false →
      ∃ l, get_leaf_values v _primitive_containers = .ok l)) ?_ v
  intro v ih
  match v with
  | .vint n => simp [hasSet, get_leaf_values, isinstance, pytype, isSubclass, _primitive_containers]
  | .vfloat n => simp [hasSet, get_leaf_values, isinstance, pytype, isSubclass, _primitive_containers]
  | .vstr s => simp [hasSet, get_leaf_values, isinstance, pytype, isSubclass, _primitive_containers]
  | .vbool b => simp [hasSet, get_leaf_values, isinstance, pytype, isSubclass, _primitive_containers]
  | .vnone => simp [hasSet, get_leaf_values, isinstance, pytype, isSubclass, _primitive_containers]
  | .vtype t => simp [hasSet, get_leaf_values, isinstance, pytype, isSubclass, _primitive_containers]
  | .vset xs =>
    constructor
    · intro _
      simp [get_leaf_values, isinstance, pytype, isSubclass, _primitive_containers, orderingMsg]
    · intro h
      rw [hasSet] at h
      exact absurd h (by simp)
  | .vlist xs =>
    have hl := glvList_hasSet xs
      (fun x hx => ih x (by
        have := sizeOf_lt_of_mem_list hx
        simp only [PyVal.vlist.sizeOf_spec]; omega))
    constructor
    · intro h
      rw [hasSet] at h
      have := hl.1 h
      simpa [get_leaf_values, isinstance, pytype, isSubclass, _primitive_containers] using this
    · intro h
      rw [hasSet] at h
      obtain ⟨l, hlok⟩ := hl.2 h
      exact ⟨l, by simpa [get_leaf_values, isinstance, pytype, isSubclass, _primitive_containers] using hlok⟩
  | .vtuple xs =>
    have hl := glvList_hasSet xs
      (fun x hx => ih x (by
        have := sizeOf_lt_of_mem_list hx
        simp only [PyVal.vtuple.sizeOf_spec]; omega))
    constructor
    · intro h
      rw [hasSet] at h
      have := hl.1 h
      simpa [get_leaf_values, isinstance, pytype, isSubclass, _primitive_containers] using this
    · intro h
      rw [hasSet] at h
      obtain ⟨l, hlok⟩ := hl.2 h
      exact ⟨l, by simpa [get_leaf_values, isinstance, pytype, isSubclass, _primitive_containers] using hlok⟩
  | .vodict es =>
    have hl := glvEntries_hasSet es
      (fun k x hx => ih x (by
        have := sizeOf_lt_of_mem_entries hx
        simp only [PyVal.vodict.sizeOf_spec]; omega))
    constructor
    · intro h
      rw [hasSet] at h
      have := hl.1 h
      simpa [get_leaf_values, isinstance, pytype, isSubclass, _primitive_containers] using this
    · intro h
      rw [hasSet] at h
      obtain ⟨l, hlok⟩ := hl.2 h
      exact ⟨l, by simpa [get_leaf_values, isinstance, pytype, isSubclass, _primitive_containers] using hlok⟩
  | .vdict es =>
    have hl := glvEntries_hasSet (sortByKey es)
      (fun k x hx => ih x (by
        have := sizeOf_lt_of_mem_entries (mem_sortByKey hx)
        simp only [PyVal.vdict.sizeOf_spec]; omega))
    constructor
    · intro h
      rw [hasSet] at h
      rw [← hasSetEntries_sortByKey] at h
      have := hl.1 h
      simpa [get_leaf_values, isinstance, pytype, isSubclass, _primitive_containers] using this
    · intro h
      rw [hasSet] at h
      rw [← hasSetEntries_sortByKey] at h
      obtain ⟨l, hlok⟩ := hl.2 h
      exact ⟨l, by simpa [get_leaf_values, isinstance, pytype, isSubclass, _primitive_containers] using hlok⟩

/-- Claim C6: leaf extraction from a value that is a set, or that
contains a set on a path of containers, raises the ordering exception
(the spec's `OrderingError`) instead of picking an implicit element
order. -/
theorem get_leaf_values_set_error (v : PyVal) (h : hasSet v = true) :
    get_leaf_values v _primitive_containers = .error orderingMsg :=
  (glv_hasSet v).1 h

theorem get_leaf_values_set_error_witness :
    hasSet (.vlist [.vint 1, .vset [.vint 2]]) = true ∧
    get_leaf_values (.vlist [.vint 1, .vset [.vint 2]]) _primitive_containers =
      .error orderingMsg := by
  constructor
  · simp [hasSet, hasSetList]
  · exact get_leaf_values_set_error _ (by simp [hasSet, hasSetList])

theorem length_mkSetAux (l : List PyVal) : ∀ acc : List PyVal,
    (mkSetAux acc l).length ≤ acc.length + l.length := by
  induction l with
  | nil => intro acc; simp [mkSetAux]
  | cons x xs ih =>
    intro acc
    by_cases h : pyMember x acc = true
    · simp only [mkSetAux, h, if_true]
      have := ih acc
      simp only [List.length_cons]
      omega
    · simp only [mkSetAux, h, if_false, Bool.false_eq_true]
      have := ih (acc ++ [x])
      simp only [List.length_append, List.length_cons, List.length_nil] at this ⊢
      omega

theorem length_gmoList (xs : List PyVal) : (gmoList xs).length = xs.length := by
  induction xs with
  | nil => rw [gmoList]
  | cons x xs ih => rw [gmoList]; simp [ih]

theorem sameShapeLeList_gmoList (xs : List PyVal)
    (ih : ∀ x ∈ xs,
      sameShapeLe (get_meta_object x _primitive_containers) x = true) :
    sameShapeLeList (gmoList xs) xs = true := by
  induction xs with
  | nil => rw [gmoList, sameShapeLeList]
  | cons x xs ihl =>
    rw [gmoList, sameShapeLeList, Bool.and_eq_true]
    exact ⟨ih x (by simp), ihl (fun y hy => ih y (by simp [hy]))⟩

theorem sameShapeLeMap_gmoEntries (es : List (PyKey × PyVal))
    (ih : ∀ k x, (k, x) ∈ es →
      sameShapeLe (get_meta_object x _primitive_containers) x = true) :
    sameShapeLeMap (gmoEntries es) es = true := by
  induction es with
  | nil => rw [gmoEntries, sameShapeLeMap]
  | cons q es ihl =>
    match q with
    | (k, x) =>
      rw [gmoEntries, sameShapeLeMap, Bool.and_eq_true, Bool.and_eq_true]
      exact ⟨⟨by simp, ih k x (by simp)⟩,
        ihl (fun k2 y hy => ih k2 y (by simp [hy]))⟩

/-- Claim C2 (amended): the schema produced by `get_meta_object` has, at
every nesting level, the same container kind as the value, the same
length for sequences and the same keys for mappings; for a set, the
schema's cardinality is only at most the value's cardinality, because the
`set(...)` constructor drops duplicate element schemas. -/
theorem get_meta_object_shape (v : PyVal) :
    sameShapeLe (get_meta_object v _primitive_containers) v = true := by
  refine sizeOfStrongInduction
    (fun v => sameShapeLe (get_meta_object v _primitive_containers) v = true) ?_ v
  intro v ih
  match v with
  | .vint n => simp [get_meta_object, sameShapeLe, isinstance, pytype, isSubclass, _primitive_containers, tagIs]
  | .vfloat n => simp [get_meta_object, sameShapeLe, isinstance, pytype, isSubclass, _primitive_containers, tagIs]
  | .vstr s => simp [get_meta_object, sameShapeLe, isinstance, pytype, isSubclass, _primitive_containers, tagIs]
  | .vbool b => simp [get_meta_object, sameShapeLe, isinstance, pytype, isSubclass, _primitive_containers, tagIs]
  | .vnone => simp [get_meta_object, sameShapeLe, isinstance, pytype, isSubclass, _primitive_containers, tagIs]
  | .vtype t => simp [get_meta_object, sameShapeLe, isinstance, pytype, isSubclass, _primitive_containers, tagIs]
  | .vlist xs =>
    have h := sameShapeLeList_gmoList xs (fun x hx => ih x (by
      have := sizeOf_lt_of_mem_list hx
      simp only [PyVal.vlist.sizeOf_spec]; omega))
    simp [get_meta_object, isinstance, pytype, isSubclass, _primitive_containers,
      sameShapeLe, h]
  | .vtuple xs =>
    have h := sameShapeLeList_gmoList xs (fun x hx => ih x (by
      have := sizeOf_lt_of_mem_list hx
      simp only [PyVal.vtuple.sizeOf_spec]; omega))
    simp [get_meta_object, isinstance, pytype, isSubclass, _primitive_containers,
      sameShapeLe, h]
  | .vdict es =>
    have h := sameShapeLeMap_gmoEntries es (fun k x hx => ih x (by
      have := sizeOf_lt_of_mem_entries hx
      simp only [PyVal.vdict.sizeOf_spec]; omega))
    simp [get_meta_object, isinstance, pytype, isSubclass, _primitive_containers,
      sameShapeLe, h]
  | .vodict es =>
    have h := sameShapeLeMap_gmoEntries es (fun k x hx => ih x (by
      have := sizeOf_lt_of_mem_entries hx
      simp only [PyVal.vodict.sizeOf_spec]; omega))
    simp [get_meta_object, isinstance, pytype, isSubclass, _primitive_containers,
      sameShapeLe, h]
  | .vset xs =>
    have h1 := length_mkSetAux (gmoList xs) []
    have h2 := length_gmoList xs
    simp only [List.length_nil] at h1
    simp [get_meta_object, isinstance, pytype, isSubclass, _primitive_containers,
      mkSet, sameShapeLe]
    omega

/-- Claim C2 (counterexample): the set `{1, 2}` has cardinality 2, but its
derived schema is the singleton set `{int}` of cardinality 1 — the shape
relation claimed by the spec (same cardinality for sets) fails. -/
theorem get_meta_object_shape_cex :
    get_meta_object (.vset [.vint 1, .vint 2]) _primitive_containers =
      .vset [.vtype .int] ∧
    sameShape (get_meta_object (.vset [.vint 1, .vint 2]) _primitive_containers)
      (.vset [.vint 1, .vint 2]) = false := by
  have h : get_meta_object (.vset [.vint 1, .vint 2]) _primitive_containers =
      .vset [.vtype .int] := by
    rw [get_meta_object]
    rw [gmoList, gmoList, gmoList]
    simp [isinstance, pytype, isSubclass, _primitive_containers, mkSet, mkSetAux,
      pyMember, pyEq, get_meta_object]
  refine ⟨h, ?_⟩
  rw [h, sameShape]
  simp

/-- Claim C9 (counterexample): with recognized kinds `(list,)` the claim
says the dict nested inside the list must be treated as a leaf (its type
is not a subtype of `list`), i.e. the schema should be `[dict]`; the code
instead decomposes it, because the recursive call on line 110 passes no
`containers` argument and falls back to the default kinds. -/
theorem get_meta_object_containers_cex :
    get_meta_object (.vlist [.vdict [(.kstr "a", .vint 1)]]) [.list] =
      .vlist [.vdict [(.kstr "a", .vtype .int)]] ∧
    get_meta_object_spec (.vlist [.vdict [(.kstr "a", .vint 1)]]) [.list] =
      .vlist [.vtype .dict] ∧
    get_meta_object (.vlist [.vdict [(.kstr "a", .vint 1)]]) [.list] ≠
      get_meta_object_spec (.vlist [.vdict [(.kstr "a", .vint 1)]]) [.list] := by
  have h1 : get_meta_object (.vlist [.vdict [(.kstr "a", .vint 1)]]) [.list] =
      .vlist [.vdict [(.kstr "a", .vtype .int)]] := by
    rw [get_meta_object, gmoList, gmoList]
    rw [get_meta_object, gmoEntries, gmoEntries]
    rw [get_meta_object]
    simp [isinstance, pytype, isSubclass, _primitive_containers]
    all_goals simp
  have h2 : get_meta_object_spec (.vlist [.vdict [(.kstr "a", .vint 1)]]) [.list] =
      .vlist [.vtype .dict] := by
    rw [get_meta_object_spec, gmoSpecList, gmoSpecList, get_meta_object_spec]
    simp [isinstance, pytype, isSubclass]
  refine ⟨h1, h2, ?_⟩
  rw [h1, h2]
  intro h
  simp at h

theorem gmoList_eq_spec (xs : List PyVal)
    (ih : ∀ x ∈ xs, get_meta_object x _primitive_containers =
      get_meta_object_spec x _primitive_containers) :
    gmoList xs = gmoSpecList xs _primitive_containers := by
  induction xs with
  | nil => rw [gmoList, gmoSpecList]
  | cons x xs ihl =>
    rw [gmoList, gmoSpecList, ih x (by simp),
      ihl (fun y hy => ih y (by simp [hy]))]

theorem gmoEntries_eq_spec (es : List (PyKey × PyVal))
    (ih : ∀ k x, (k, x) ∈ es → get_meta_object x _primitive_containers =
      get_meta_object_spec x _primitive_containers) :
    gmoEntries es = gmoSpecEntries es _primitive_containers := by
  induction es with
  | nil => rw [gmoEntries, gmoSpecEntries]
  | cons q es ihl =>
    match q with
    | (k, x) =>
      rw [gmoEntries, gmoSpecEntries, ih k x (by simp),
        ihl (fun k2 y hy => ih k2 y (by simp [hy]))]

/-- Claim C9 (amended): the `containers` argument of `get_meta_object`
(and of `NestedType.from_data`) governs only the classification of the
top-level value — a root that it does not classify as a container is
replaced by its type tag — while every nested sub-value is classified
with the default container kinds, because the recursive calls pass no
`containers` argument; consequently the claimed recursion-uniform
behaviour holds exactly for the default kinds. -/
theorem get_meta_object_containers_amended :
    (∀ (v : PyVal) (cs : List PyType), isinstance v cs = false →
      get_meta_object v cs = .vtype (pytype v)) ∧
    (∀ v : PyVal, get_meta_object v _primitive_containers =
      get_meta_object_spec v _primitive_containers) := by
  constructor
  · intro v cs h
    cases v <;> rw [get_meta_object] <;> simp [h]
  · intro v
    refine sizeOfStrongInduction (fun v =>
      get_meta_object v _primitive_containers =
        get_meta_object_spec v _primitive_containers) ?_ v
    intro v ih
    match v with
    | .vint n => simp [get_meta_object, get_meta_object_spec, isinstance, pytype, isSubclass, _primitive_containers]
    | .vfloat n => simp [get_meta_object, get_meta_object_spec, isinstance, pytype, isSubclass, _primitive_containers]
    | .vstr s => simp [get_meta_object, get_meta_object_spec, isinstance, pytype, isSubclass, _primitive_containers]
    | .vbool b => simp [get_meta_object, get_meta_object_spec, isinstance, pytype, isSubclass, _primitive_containers]
    | .vnone => simp [get_meta_object, get_meta_object_spec, isinstance, pytype, isSubclass, _primitive_containers]
    | .vtype t => simp [get_meta_object, get_meta_object_spec, isinstance, pytype, isSubclass, _primitive_containers]
    | .vlist xs =>
      rw [get_meta_object, get_meta_object_spec,
        gmoList_eq_spec xs (fun x hx => ih x (by
          have := sizeOf_lt_of_mem_list hx
          simp only [PyVal.vlist.sizeOf_spec]; omega))]
    | .vtuple xs =>
      rw [get_meta_object, get_meta_object_spec,
        gmoList_eq_spec xs (fun x hx => ih x (by
          have := sizeOf_lt_of_mem_list hx
          simp only [PyVal.vtuple.sizeOf_spec]; omega))]
    | .vset xs =>
      rw [get_meta_object, get_meta_object_spec,
        gmoList_eq_spec xs (fun x hx => ih x (by
          have := sizeOf_lt_of_mem_list hx
          simp only [PyVal.vset.sizeOf_spec]; omega))]
    | .vdict es =>
      rw [get_meta_object, get_meta_object_spec,
        gmoEntries_eq_spec es (fun k x hx => ih x (by
          have := sizeOf_lt_of_mem_entries hx
          simp only [PyVal.vdict.sizeOf_spec]; omega))]
    | .vodict es =>
      rw [get_meta_object, get_meta_object_spec,
        gmoEntries_eq_spec es (fun k x hx => ih x (by
          have := sizeOf_lt_of_mem_entries hx
          simp only [PyVal.vodict.sizeOf_spec]; omega))]

theorem get_meta_object_containers_amended_witness :
    isinstance (.vdict [(.kstr "a", .vint 1)]) [.list] = false ∧
    get_meta_object (.vdict [(.kstr "a", .vint 1)]) [.list] = .vtype .dict ∧
    get_meta_object (.vlist [.vint 1]) _primitive_containers =
      get_meta_object_spec (.vlist [.vint 1]) _primitive_containers := by
  refine ⟨rfl, ?_, ?_⟩
  · exact get_meta_object_containers_amended.1 _ _ rfl
  · exact get_meta_object_containers_amended.2 _

theorem length_gmoEntries (es : List (PyKey × PyVal)) :
    (gmoEntries es).length = es.length := by
  induction es with
  | nil => rw [gmoEntries]
  | cons q es ih =>
    match q with
    | (k, x) => rw [gmoEntries]; simp [ih]

theorem keys_gmoEntries (es : List (PyKey × PyVal)) :
    (gmoEntries es).map Prod.fst = es.map Prod.fst := by
  induction es with
  | nil => rw [gmoEntries]
  | cons q es ih =>
    match q with
    | (k, x) => rw [gmoEntries]; simp [ih]

theorem pyEqList_gmoList (xs : List PyVal)
    (ih : ∀ x ∈ xs, ∀ s, pyEq (get_meta_object x _primitive_containers) s =
      conformsStrict x s) :
    ∀ ss : List PyVal, pyEqList (gmoList xs) ss = conformsStrictList xs ss := by
  induction xs with
  | nil =>
    intro ss
    cases ss <;> simp [gmoList, pyEqList, conformsStrictList]
  | cons x xs ihl =>
    intro ss
    cases ss with
    | nil => simp [gmoList, pyEqList, conformsStrictList]
    | cons s ss =>
      rw [gmoList]
      simp only [pyEqList, conformsStrictList]
      rw [ih x (by simp) s, ihl (fun y hy s2 => ih y (by simp [hy]) s2) ss]

theorem pyFind_gmo (k : PyKey) (x : PyVal)
    (ih : ∀ s, pyEq (get_meta_object x _primitive_containers) s =
      conformsStrict x s) :
    ∀ ss : List (PyKey × PyVal),
      pyFind k (get_meta_object x _primitive_containers) ss =
        conformsStrictFind k x ss := by
  intro ss
  induction ss with
  | nil => simp [pyFind, conformsStrictFind]
  | cons q ss ihl =>
    match q with
    | (k2, s) =>
      simp only [pyFind, conformsStrictFind]
      by_cases h : k = k2
      · simp [h, ih s]
      · simp [h, ihl]

theorem pyEqDictSub_gmoEntries (es : List (PyKey × PyVal))
    (ih : ∀ k x, (k, x) ∈ es → ∀ s,
      pyEq (get_meta_object x _primitive_containers) s = conformsStrict x s) :
    ∀ ss : List (PyKey × PyVal),
      pyEqDictSub (gmoEntries es) ss = conformsStrictMapSub es ss := by
  induction es with
  | nil => intro ss; rw [gmoEntries]; simp [pyEqDictSub, conformsStrictMapSub]
  | cons q es ihl =>
    match q with
    | (k, x) =>
      intro ss
      rw [gmoEntries]
      simp only [pyEqDictSub, conformsStrictMapSub]
      rw [pyFind_gmo k x (ih k x (by simp)),
        ihl (fun k2 y hy s2 => ih k2 y (by simp [hy]) s2) ss]

theorem pyEqDict_gmoEntries (es : List (PyKey × PyVal))
    (ih : ∀ k x, (k, x) ∈ es → ∀ s,
      pyEq (get_meta_object x _primitive_containers) s = conformsStrict x s) :
    ∀ ss : List (PyKey × PyVal),
      pyEqDict (gmoEntries es) ss = conformsStrictMap es ss := by
  intro ss
  rw [pyEqDict, conformsStrictMap, length_gmoEntries,
    pyEqDictSub_gmoEntries es ih ss]

theorem sameKeyOrder_gmoEntries (es ss : List (PyKey × PyVal)) :
    sameKeyOrder (gmoEntries es) ss = sameKeyOrder es ss := by
  rw [sameKeyOrder, sameKeyOrder, keys_gmoEntries]

theorem pyEq_gmo_eq_conformsStrict (v : PyVal) :
    ∀ s, pyEq (get_meta_object v _primitive_containers) s =
      conformsStrict v s := by
  refine sizeOfStrongInduction (fun v => ∀ s,
    pyEq (get_meta_object v _primitive_containers) s = conformsStrict v s) ?_ v
  intro v ih
  match v with
  | .vint n =>
    intro s
    rw [show get_meta_object (.vint n) _primitive_containers = .vtype .int by
      rw [get_meta_object] <;> simp [isinstance, pytype, isSubclass, _primitive_containers]]
    cases s <;>
      simp [pyEq, conformsStrict, tagIs, isinstance, pytype, isSubclass,
        _primitive_containers]
    exact eq_comm
  | .vfloat n =>
    intro s
    rw [show get_meta_object (.vfloat n) _primitive_containers = .vtype .float by
      rw [get_meta_object] <;> simp [isinstance, pytype, isSubclass, _primitive_containers]]
    cases s <;>
      simp [pyEq, conformsStrict, tagIs, isinstance, pytype, isSubclass,
        _primitive_containers]
    exact eq_comm
  | .vstr st =>
    intro s
    rw [show get_meta_object (.vstr st) _primitive_containers = .vtype .str by
      rw [get_meta_object] <;> simp [isinstance, pytype, isSubclass, _primitive_containers]]
    cases s <;>
      simp [pyEq, conformsStrict, tagIs, isinstance, pytype, isSubclass,
        _primitive_containers]
    exact eq_comm
  | .vbool b =>
    intro s
    rw [show get_meta_object (.vbool b) _primitive_containers = .vtype .bool by
      rw [get_meta_object] <;> simp [isinstance, pytype, isSubclass, _primitive_containers]]
    cases s <;>
      simp [pyEq, conformsStrict, tagIs, isinstance, pytype, isSubclass,
        _primitive_containers]
    exact eq_comm
  | .vnone =>
    intro s
    rw [show get_meta_object .vnone _primitive_containers = .vtype .none by
      rw [get_meta_object] <;> simp [isinstance, pytype, isSubclass, _primitive_containers]]
    cases s <;>
      simp [pyEq, conformsStrict, tagIs, isinstance, pytype, isSubclass,
        _primitive_containers]
    exact eq_comm
  | .vtype t =>
    intro s
    rw [show get_meta_object (.vtype t) _primitive_containers = .vtype .type by
      rw [get_meta_object] <;> simp [isinstance, pytype, isSubclass, _primitive_containers]]
    cases s <;>
      simp [pyEq, conformsStrict, tagIs, isinstance, pytype, isSubclass,
        _primitive_containers]
    exact eq_comm
  | .vlist xs =>
    intro s
    have ihx : ∀ x ∈ xs, ∀ s2,
        pyEq (get_meta_object x _primitive_containers) s2 = conformsStrict x s2 :=
      fun x hx => ih x (by
        have := sizeOf_lt_of_mem_list hx
        simp only [PyVal.vlist.sizeOf_spec]; omega)
    rw [show get_meta_object (.vlist xs) _primitive_containers =
        .vlist (gmoList xs) by
      rw [get_meta_object] <;> simp [isinstance, pytype, isSubclass, _primitive_containers]]
    cases s <;>
      simp [pyEq, conformsStrict, isinstance, pytype, isSubclass,
        _primitive_containers, tagIs, pyEqList_gmoList xs ihx]
  | .vtuple xs =>
    intro s
    have ihx : ∀ x ∈ xs, ∀ s2,
        pyEq (get_meta_object x _primitive_containers) s2 = conformsStrict x s2 :=
      fun x hx => ih x (by
        have := sizeOf_lt_of_mem_list hx
        simp only [PyVal.vtuple.sizeOf_spec]; omega)
    rw [show get_meta_object (.vtuple xs) _primitive_containers =
        .vtuple (gmoList xs) by
      rw [get_meta_object] <;> simp [isinstance, pytype, isSubclass, _primitive_containers]]
    cases s <;>
      simp [pyEq, conformsStrict, isinstance, pytype, isSubclass,
        _primitive_containers, tagIs, pyEqList_gmoList xs ihx]
  | .vdict es =>
    intro s
    have ihx : ∀ k x, (k, x) ∈ es → ∀ s2,
        pyEq (get_meta_object x _primitive_containers) s2 = conformsStrict x s2 :=
      fun k x hx => ih x (by
        have := sizeOf_lt_of_mem_entries hx
        simp only [PyVal.vdict.sizeOf_spec]; omega)
    rw [show get_meta_object (.vdict es) _primitive_containers =
        .vdict (gmoEntries es) by
      rw [get_meta_object] <;> simp [isinstance, pytype, isSubclass, _primitive_containers]]
    cases s <;>
      simp [pyEq, conformsStrict, isinstance, pytype, isSubclass,
        _primitive_containers, tagIs, pyEqDict_gmoEntries es ihx]
  | .vodict es =>
    intro s
    have ihx : ∀ k x, (k, x) ∈ es → ∀ s2,
        pyEq (get_meta_object x _primitive_containers) s2 = conformsStrict x s2 :=
      fun k x hx => ih x (by
        have := sizeOf_lt_of_mem_entries hx
        simp only [PyVal.vodict.sizeOf_spec]; omega)
    rw [show get_meta_object (.vodict es) _primitive_containers =
        .vodict (gmoEntries es) by
      rw [get_meta_object] <;> simp [isinstance, pytype, isSubclass, _primitive_containers]]
    cases s <;>
      simp [pyEq, conformsStrict, isinstance, pytype, isSubclass,
        _primitive_containers, tagIs, pyEqDict_gmoEntries es ihx,
        sameKeyOrder_gmoEntries]
  | .vset xs =>
    intro s
    rw [show get_meta_object (.vset xs) _primitive_containers =
        mkSet (gmoList xs) by
      rw [get_meta_object] <;> simp [isinstance, pytype, isSubclass, _primitive_containers]]
    cases s <;>
      simp [pyEq, conformsStrict, isinstance, pytype, isSubclass,
        _primitive_containers, tagIs, mkSet]

/-- Claim C3 (amended): `is_type_for` is Python equality of the derived
schema with the held one, and that equality coincides with structural
conformance in which an `OrderedDict` schema matched against an
`OrderedDict` value additionally requires the same key order, while a
plain dict on either side is compared by key set alone (so a match may
cross the dict/OrderedDict kinds, but two OrderedDicts never match under
a mere key-set permutation). -/
theorem is_type_for_eq_conformsStrict (t : NestedType) (v : PyVal) :
    t.is_type_for v = conformsStrict v t.meta_object := by
  rw [NestedType.is_type_for]
  exact pyEq_gmo_eq_conformsStrict v t.meta_object

/-- Claim C3 (counterexample): the value `OrderedDict(b='x', a=1)` has the
same shape (Mapping kind, key set `{a,b}`) as the schema
`OrderedDict(a=int, b=str)` and every leaf has exactly the tagged runtime
type, yet `is_type_for` is false, because Python equality of two
OrderedDicts is insertion-order-sensitive. -/
theorem is_type_for_cex :
    conforms (.vodict [(.kstr "b", .vstr "x"), (.kstr "a", .vint 1)])
      (.vodict [(.kstr "a", .vtype .int), (.kstr "b", .vtype .str)]) = true ∧
    (NestedType.mk (.vodict [(.kstr "a", .vtype .int), (.kstr "b", .vtype .str)])).is_type_for
      (.vodict [(.kstr "b", .vstr "x"), (.kstr "a", .vint 1)]) = false := by
  constructor
  · simp [conforms, conformsMap, conformsMapSub, conformsFind, tagIs,
      isinstance, pytype, isSubclass, _primitive_containers]
  · rw [NestedType.is_type_for]
    rw [show get_meta_object (.vodict [(.kstr "b", .vstr "x"), (.kstr "a", .vint 1)])
        _primitive_containers =
        .vodict [(.kstr "b", .vtype .str), (.kstr "a", .vtype .int)] by
      rw [get_meta_object, gmoEntries, gmoEntries, gmoEntries]
      rw [get_meta_object, get_meta_object]
      simp [isinstance, pytype, isSubclass, _primitive_containers]
      all_goals simp]
    rw [pyEq]
    have hko : sameKeyOrder
        [(PyKey.kstr "b", PyVal.vtype .str), (PyKey.kstr "a", PyVal.vtype .int)]
        [(PyKey.kstr "a", PyVal.vtype .int), (PyKey.kstr "b", PyVal.vtype .str)] =
        false := by
      rw [sameKeyOrder]
      decide
    simp [hko]

/-- The first position at which a pulled value's runtime type is not the
corresponding (consumption-ordered) schema tag, together with the
offending tag and runtime type; `Option.none` when every pulled value up
to the shorter length matches. -/
def firstBadTag : List PyVal → List PyVal → Option (PyVal × PyType)
  | t :: ts, d :: ds =>
    if tagIs t (pytype d) then firstBadTag ts ds else some (t, pytype d)
  | _, _ => Option.none

/-- `firstBadTag` when type checking is enabled, nothing otherwise. -/
def badAt (ct : Bool) (tags data : List PyVal) : Option (PyVal × PyType) :=
  if ct then firstBadTag tags data else Option.none

theorem firstBadTag_nil (data : List PyVal) :
    firstBadTag [] data = Option.none := by
  cases data <;> rfl

theorem firstBadTag_append (ts1 ts2 data : List PyVal) :
    firstBadTag (ts1 ++ ts2) data =
      (match firstBadTag ts1 data with
       | some r => some r
       | Option.none =>
         if ts1.length ≤ data.length then firstBadTag ts2 (data.drop ts1.length)
         else Option.none) := by
  induction ts1 generalizing data with
  | nil => simp [firstBadTag_nil]
  | cons t ts1 ih =>
    cases data with
    | nil => simp [firstBadTag]
    | cons d ds =>
      by_cases h : tagIs t (pytype d) = true
      · simp only [List.cons_append, firstBadTag, h, if_true, List.length_cons,
          List.drop_succ_cons, Nat.add_le_add_iff_right]
        exact ih ds
      · simp only [List.cons_append, firstBadTag, h, Bool.false_eq_true, if_false]

theorem badAt_append (ct : Bool) (ts1 ts2 data : List PyVal) :
    badAt ct (ts1 ++ ts2) data =
      (match badAt ct ts1 data with
       | some r => some r
       | Option.none =>
         if ts1.length ≤ data.length then badAt ct ts2 (data.drop ts1.length)
         else Option.none) := by
  cases ct with
  | false => simp [badAt]
  | true => simp [badAt, firstBadTag_append]

theorem leafCountEntries_eq_sum (es : List (PyKey × PyVal)) :
    leafCountEntries es = (es.map (fun q => leafCount q.2)).sum := by
  induction es with
  | nil => rw [leafCountEntries]; rfl
  | cons q es ih =>
    match q with
    | (k, x) => rw [leafCountEntries]; simp [ih]

theorem leafCountEntries_sortByKey (es : List (PyKey × PyVal)) :
    leafCountEntries (sortByKey es) = leafCountEntries es := by
  rw [leafCountEntries_eq_sum, leafCountEntries_eq_sum]
  exact List.Perm.sum_eq (List.Perm.map _ (perm_sortByKey es))

theorem length_fillTagsList (xs : List PyVal)
    (ih : ∀ x ∈ xs, (fillTags x).length = leafCount x) :
    (fillTagsList xs).length = leafCountList xs := by
  induction xs with
  | nil => rw [fillTagsList, leafCountList]; rfl
  | cons x xs ihl =>
    rw [fillTagsList, leafCountList]
    simp [ih x (by simp), ihl (fun y hy => ih y (by simp [hy]))]

theorem length_fillTagsEntries (es : List (PyKey × PyVal))
    (ih : ∀ k x, (k, x) ∈ es → (fillTags x).length = leafCount x) :
    (fillTagsEntries es).length = leafCountEntries es := by
  induction es with
  | nil => rw [fillTagsEntries, leafCountEntries]; rfl
  | cons q es ihl =>
    match q with
    | (k, x) =>
      rw [fillTagsEntries, leafCountEntries]
      simp [ih k x (by simp), ihl (fun k2 y hy => ih k2 y (by simp [hy]))]

theorem length_fillTags (meta : PyVal) :
    (fillTags meta).length = leafCount meta := by
  refine sizeOfStrongInduction (fun meta =>
    (fillTags meta).length = leafCount meta) ?_ meta
  intro meta ih
  match meta with
  | .vint n => simp [fillTags, leafCount]
  | .vfloat n => simp [fillTags, leafCount]
  | .vstr s => simp [fillTags, leafCount]
  | .vbool b => simp [fillTags, leafCount]
  | .vnone => simp [fillTags, leafCount]
  | .vtype t => simp [fillTags, leafCount]
  | .vlist xs =>
    rw [fillTags, leafCount]
    exact length_fillTagsList xs (fun x hx => ih x (by
      have := sizeOf_lt_of_mem_list hx
      simp only [PyVal.vlist.sizeOf_spec]; omega))
  | .vtuple xs =>
    rw [fillTags, leafCount]
    exact length_fillTagsList xs (fun x hx => ih x (by
      have := sizeOf_lt_of_mem_list hx
      simp only [PyVal.vtuple.sizeOf_spec]; omega))
  | .vset xs =>
    rw [fillTags, leafCount]
    exact length_fillTagsList xs (fun x hx => ih x (by
      have := sizeOf_lt_of_mem_list hx
      simp only [PyVal.vset.sizeOf_spec]; omega))
  | .vodict es =>
    rw [fillTags, leafCount]
    exact length_fillTagsEntries es (fun k x hx => ih x (by
      have := sizeOf_lt_of_mem_entries hx
      simp only [PyVal.vodict.sizeOf_spec]; omega))
  | .vdict es =>
    rw [fillTags, leafCount]
    rw [← leafCountEntries_sortByKey]
    exact length_fillTagsEntries (sortByKey es) (fun k x hx => ih x (by
      have := sizeOf_lt_of_mem_entries (mem_sortByKey hx)
      simp only [PyVal.vdict.sizeOf_spec]; omega))

theorem fillList_cons_err (x : PyVal) (xs : List PyVal) (data : List PyVal)
    (ct : Bool) (e : FillError) (h : fillBody x data ct = .error e) :
    fillList (x :: xs) data ct = .error e := by
  rw [fillList, h]

theorem fillList_cons_ok (x : PyVal) (xs : List PyVal) (data rest : List PyVal)
    (ct : Bool) (w : PyVal) (h : fillBody x data ct = .ok (w, rest)) :
    fillList (x :: xs) data ct =
      (match fillList xs rest ct with
       | .error e => .error e
       | .ok (ws, rest2) => .ok (w :: ws, rest2)) := by
  rw [fillList, h]

theorem fillEntries_cons_err (k : PyKey) (x : PyVal)
    (es : List (PyKey × PyVal)) (data : List PyVal) (ct : Bool) (e : FillError)
    (h : fillBody x data ct = .error e) :
    fillEntries ((k, x) :: es) data ct = .error e := by
  rw [fillEntries, h]

theorem fillEntries_cons_ok (k : PyKey) (x : PyVal)
    (es : List (PyKey × PyVal)) (data rest : List PyVal) (ct : Bool) (w : PyVal)
    (h : fillBody x data ct = .ok (w, rest)) :
    fillEntries ((k, x) :: es) data ct =
      (match fillEntries es rest ct with
       | .error e => .error e
       | .ok (ws, rest2) => .ok ((k, w) :: ws, rest2)) := by
  rw [fillEntries, h]

theorem fillBody_vlist_err (xs : List PyVal) (data : List PyVal) (ct : Bool)
    (e : FillError) (h : fillList xs data ct = .error e) :
    fillBody (.vlist xs) data ct = .error e := by
  rw [fillBody, h]

theorem fillBody_vlist_ok (xs : List PyVal) (data rest : List PyVal)
    (ct : Bool) (ws : List PyVal) (h : fillList xs data ct = .ok (ws, rest)) :
    fillBody (.vlist xs) data ct = .ok (.vlist ws, rest) := by
  rw [fillBody, h]

theorem fillBody_vtuple_err (xs : List PyVal) (data : List PyVal) (ct : Bool)
    (e : FillError) (h : fillList xs data ct = .error e) :
    fillBody (.vtuple xs) data ct = .error e := by
  rw [fillBody, h]

theorem fillBody_vtuple_ok (xs : List PyVal) (data rest : List PyVal)
    (ct : Bool) (ws : List PyVal) (h : fillList xs data ct = .ok (ws, rest)) :
    fillBody (.vtuple xs) data ct = .ok (.vtuple ws, rest) := by
  rw [fillBody, h]

theorem fillBody_vset_err (xs : List PyVal) (data : List PyVal) (ct : Bool)
    (e : FillError) (h : fillList xs data ct = .error e) :
    fillBody (.vset xs) data ct = .error e := by
  rw [fillBody, h]

theorem fillBody_vset_ok (xs : List PyVal) (data rest : List PyVal)
    (ct : Bool) (ws : List PyVal) (h : fillList xs data ct = .ok (ws, rest)) :
    fillBody (.vset xs) data ct = .ok (mkSet ws, rest) := by
  rw [fillBody, h]

theorem fillBody_vodict_err (es : List (PyKey × PyVal)) (data : List PyVal)
    (ct : Bool) (e : FillError) (h : fillEntries es data ct = .error e) :
    fillBody (.vodict es) data ct = .error e := by
  rw [fillBody, h]

theorem fillBody_vodict_ok (es : List (PyKey × PyVal)) (data rest : List PyVal)
    (ct : Bool) (ws : List (PyKey × PyVal))
    (h : fillEntries es data ct = .ok (ws, rest)) :
    fillBody (.vodict es) data ct = .ok (.vodict ws, rest) := by
  rw [fillBody, h]

theorem fillBody_vdict_err (es : List (PyKey × PyVal)) (data : List PyVal)
    (ct : Bool) (e : FillError)
    (h : fillEntries (sortByKey es) data ct = .error e) :
    fillBody (.vdict es) data ct = .error e := by
  rw [fillBody, h]

theorem fillBody_vdict_ok (es : List (PyKey × PyVal)) (data rest : List PyVal)
    (ct : Bool) (ws : List (PyKey × PyVal))
    (h : fillEntries (sortByKey es) data ct = .ok (ws, rest)) :
    fillBody (.vdict es) data ct = .ok (.vdict ws, rest) := by
  rw [fillBody, h]

theorem badAt_append_some (ct : Bool) (ts1 ts2 data : List PyVal)
    (r : PyVal × PyType) (h : badAt ct ts1 data = some r) :
    badAt ct (ts1 ++ ts2) data = some r := by
  rw [badAt_append, h]

theorem badAt_append_none_le (ct : Bool) (ts1 ts2 data : List PyVal)
    (h : badAt ct ts1 data = Option.none) (hle : ts1.length ≤ data.length) :
    badAt ct (ts1 ++ ts2) data = badAt ct ts2 (data.drop ts1.length) := by
  rw [badAt_append, h]
  simp [hle]

theorem badAt_append_none_gt (ct : Bool) (ts1 ts2 data : List PyVal)
    (h : badAt ct ts1 data = Option.none) (hgt : data.length < ts1.length) :
    badAt ct (ts1 ++ ts2) data = Option.none := by
  rw [badAt_append, h]
  simp only
  rw [if_neg (by omega)]

theorem fillBody_leaf_master (t : PyVal)
    (hb : ∀ data ct, fillBody t data ct =
      (match data with
       | [] => .error .insufficientData
       | d :: rest =>
         if ct && !(tagIs t (pytype d)) then
           .error (.schemaMismatch t (pytype d))
         else .ok (d, rest)))
    (ht : fillTags t = [t]) (hc : leafCount t = 1) :
    ∀ data ct,
      (∀ e a, badAt ct (fillTags t) data = some (e, a) →
        fillBody t data ct = .error (.schemaMismatch e a)) ∧
      (badAt ct (fillTags t) data = Option.none →
        (leafCount t ≤ data.length →
          ∃ w, fillBody t data ct = .ok (w, data.drop (leafCount t))) ∧
        (data.length < leafCount t →
          fillBody t data ct = .error .insufficientData)) := by
  intro data ct
  rw [ht, hc, hb]
  cases data with
  | nil =>
    constructor
    · intro e a h
      rw [badAt] at h
      cases ct <;> simp [firstBadTag] at h
    · intro _
      exact ⟨fun h => absurd h (by simp), fun _ => rfl⟩
  | cons d ds =>
    cases ct with
    | false =>
      constructor
      · intro e a h
        rw [badAt] at h
        simp at h
      · intro _
        refine ⟨fun _ => ⟨d, ?_⟩, fun h => by simp at h⟩
        simp
    | true =>
      by_cases htag : tagIs t (pytype d) = true
      · constructor
        · intro e a h
          rw [badAt] at h
          simp [firstBadTag, htag, firstBadTag_nil] at h
        · intro _
          refine ⟨fun _ => ⟨d, ?_⟩, fun h => by simp at h⟩
          simp [htag]
      · constructor
        · intro e a h
          rw [badAt] at h
          simp only [if_true, firstBadTag, htag, Bool.false_eq_true, if_false,
            Option.some.injEq, Prod.mk.injEq] at h
          simp [htag, ← h.1, ← h.2]
        · intro h
          rw [badAt] at h
          simp [firstBadTag, htag] at h

theorem fillList_master (xs : List PyVal)
    (ih : ∀ x ∈ xs, ∀ data ct,
      (∀ e a, badAt ct (fillTags x) data = some (e, a) →
        fillBody x data ct = .error (.schemaMismatch e a)) ∧
      (badAt ct (fillTags x) data = Option.none →
        (leafCount x ≤ data.length →
          ∃ w, fillBody x data ct = .ok (w, data.drop (leafCount x))) ∧
        (data.length < leafCount x →
          fillBody x data ct = .error .insufficientData))) :
    ∀ data ct,
      (∀ e a, badAt ct (fillTagsList xs) data = some (e, a) →
        fillList xs data ct = .error (.schemaMismatch e a)) ∧
      (badAt ct (fillTagsList xs) data = Option.none →
        (leafCountList xs ≤ data.length →
          ∃ ws, fillList xs data ct = .ok (ws, data.drop (leafCountList xs))) ∧
        (data.length < leafCountList xs →
          fillList xs data ct = .error .insufficientData)) := by
  induction xs with
  | nil =>
    intro data ct
    rw [fillTagsList, leafCountList]
    constructor
    · intro e a h
      rw [badAt] at h
      cases ct <;> simp [firstBadTag_nil] at h
    · intro _
      exact ⟨fun _ => ⟨[], by rw [fillList]; simp⟩, fun h => by omega⟩
  | cons x xs ihl =>
    intro data ct
    have hx := ih x (by simp) data ct
    have hxs := ihl (fun y hy => ih y (by simp [hy]))
    rw [fillTagsList, leafCountList]
    cases hbx : badAt ct (fillTags x) data with
    | some r =>
      obtain ⟨e0, a0⟩ := r
      have happ := badAt_append_some ct (fillTags x) (fillTagsList xs) data
        (e0, a0) hbx
      constructor
      · intro e a h
        rw [happ] at h
        injection h with h
        rw [Prod.mk.injEq] at h
        obtain ⟨he, ha⟩ := h
        subst he
        subst ha
        exact fillList_cons_err x xs data ct _ (hx.1 e0 a0 hbx)
      · intro h
        rw [happ] at h
        exact absurd h (by simp)
    | none =>
      by_cases hle : leafCount x ≤ data.length
      · have happ := badAt_append_none_le ct (fillTags x) (fillTagsList xs)
          data hbx (by rw [length_fillTags]; exact hle)
        rw [length_fillTags] at happ
        obtain ⟨w, hw⟩ := (hx.2 hbx).1 hle
        have hxstail := hxs (data.drop (leafCount x)) ct
        have hdlen : (data.drop (leafCount x)).length =
            data.length - leafCount x := by simp
        constructor
        · intro e a h
          rw [happ] at h
          rw [fillList_cons_ok x xs data _ ct w hw, hxstail.1 e a h]
        · intro h
          rw [happ] at h
          have htail := hxstail.2 h
          constructor
          · intro hlen
            obtain ⟨ws, hws⟩ := htail.1 (by omega)
            refine ⟨w :: ws, ?_⟩
            rw [fillList_cons_ok x xs data _ ct w hw, hws, List.drop_drop]
          · intro hlen
            rw [fillList_cons_ok x xs data _ ct w hw, htail.2 (by omega)]
      · have happ := badAt_append_none_gt ct (fillTags x) (fillTagsList xs)
          data hbx (by rw [length_fillTags]; omega)
        have hins := (hx.2 hbx).2 (by omega)
        constructor
        · intro e a h
          rw [happ] at h
          exact absurd h (by simp)
        · intro _
          refine ⟨fun hlen => absurd hlen (by omega), fun _ => ?_⟩
          exact fillList_cons_err x xs data ct _ hins

theorem fillEntries_master (es : List (PyKey × PyVal))
    (ih : ∀ k x, (k, x) ∈ es → ∀ data ct,
      (∀ e a, badAt ct (fillTags x) data = some (e, a) →
        fillBody x data ct = .error (.schemaMismatch e a)) ∧
      (badAt ct (fillTags x) data = Option.none →
        (leafCount x ≤ data.length →
          ∃ w, fillBody x data ct = .ok (w, data.drop (leafCount x))) ∧
        (data.length < leafCount x →
          fillBody x data ct = .error .insufficientData))) :
    ∀ data ct,
      (∀ e a, badAt ct (fillTagsEntries es) data = some (e, a) →
        fillEntries es data ct = .error (.schemaMismatch e a)) ∧
      (badAt ct (fillTagsEntries es) data = Option.none →
        (leafCountEntries es ≤ data.length →
          ∃ ws, fillEntries es data ct =
            .ok (ws, data.drop (leafCountEntries es))) ∧
        (data.length < leafCountEntries es →
          fillEntries es data ct = .error .insufficientData)) := by
  induction es with
  | nil =>
    intro data ct
    rw [fillTagsEntries, leafCountEntries]
    constructor
    · intro e a h
      rw [badAt] at h
      cases ct <;> simp [firstBadTag_nil] at h
    · intro _
      exact ⟨fun _ => ⟨[], by rw [fillEntries]; simp⟩, fun h => by omega⟩
  | cons q es ihl =>
    match q with
    | (k, x) =>
      intro data ct
      have hx := ih k x (by simp) data ct
      have hxs := ihl (fun k2 y hy => ih k2 y (by simp [hy]))
      rw [fillTagsEntries, leafCountEntries]
      cases hbx : badAt ct (fillTags x) data with
      | some r =>
        obtain ⟨e0, a0⟩ := r
        have happ := badAt_append_some ct (fillTags x) (fillTagsEntries es)
          data (e0, a0) hbx
        constructor
        · intro e a h
          rw [happ] at h
          injection h with h
          rw [Prod.mk.injEq] at h
          obtain ⟨he, ha⟩ := h
          subst he
          subst ha
          exact fillEntries_cons_err k x es data ct _ (hx.1 e0 a0 hbx)
        · intro h
          rw [happ] at h
          exact absurd h (by simp)
      | none =>
        by_cases hle : leafCount x ≤ data.length
        · have happ := badAt_append_none_le ct (fillTags x) (fillTagsEntries es)
            data hbx (by rw [length_fillTags]; exact hle)
          rw [length_fillTags] at happ
          obtain ⟨w, hw⟩ := (hx.2 hbx).1 hle
          have hxstail := hxs (data.drop (leafCount x)) ct
          have hdlen : (data.drop (leafCount x)).length =
              data.length - leafCount x := by simp
          constructor
          · intro e a h
            rw [happ] at h
            rw [fillEntries_cons_ok k x es data _ ct w hw, hxstail.1 e a h]
          · intro h
            rw [happ] at h
            have htail := hxstail.2 h
            constructor
            · intro hlen
              obtain ⟨ws, hws⟩ := htail.1 (by omega)
              refine ⟨(k, w) :: ws, ?_⟩
              rw [fillEntries_cons_ok k x es data _ ct w hw, hws, List.drop_drop]
            · intro hlen
              rw [fillEntries_cons_ok k x es data _ ct w hw, htail.2 (by omega)]
        · have happ := badAt_append_none_gt ct (fillTags x) (fillTagsEntries es)
            data hbx (by rw [length_fillTags]; omega)
          have hins := (hx.2 hbx).2 (by omega)
          constructor
          · intro e a h
            rw [happ] at h
            exact absurd h (by simp)
          · intro _
            refine ⟨fun hlen => absurd hlen (by omega), fun _ => ?_⟩
            exact fillEntries_cons_err k x es data ct _ hins

theorem fillBody_master (meta : PyVal) :
    ∀ data ct,
      (∀ e a, badAt ct (fillTags meta) data = some (e, a) →
        fillBody meta data ct = .error (.schemaMismatch e a)) ∧
      (badAt ct (fillTags meta) data = Option.none →
        (leafCount meta ≤ data.length →
          ∃ w, fillBody meta data ct = .ok (w, data.drop (leafCount meta))) ∧
        (data.length < leafCount meta →
          fillBody meta data ct = .error .insufficientData)) := by
  refine sizeOfStrongInduction (fun meta => ∀ data ct,
    (∀ e a, badAt ct (fillTags meta) data = some (e, a) →
      fillBody meta data ct = .error (.schemaMismatch e a)) ∧
    (badAt ct (fillTags meta) data = Option.none →
      (leafCount meta ≤ data.length →
        ∃ w, fillBody meta data ct = .ok (w, data.drop (leafCount meta))) ∧
      (data.length < leafCount meta →
        fillBody meta data ct = .error .insufficientData))) ?_ meta
  intro meta ih
  match meta with
  | .vint n =>
    exact fillBody_leaf_master (.vint n) (fun data ct => by
        cases data with
        | nil => simp [fillBody]
        | cons d rest => simp [fillBody])
      (by simp [fillTags]) (by simp [leafCount])
  | .vfloat n =>
    exact fillBody_leaf_master (.vfloat n) (fun data ct => by
        cases data with
        | nil => simp [fillBody]
        | cons d rest => simp [fillBody])
      (by simp [fillTags]) (by simp [leafCount])
  | .vstr s =>
    exact fillBody_leaf_master (.vstr s) (fun data ct => by
        cases data with
        | nil => simp [fillBody]
        | cons d rest => simp [fillBody])
      (by simp [fillTags]) (by simp [leafCount])
  | .vbool b =>
    exact fillBody_leaf_master (.vbool b) (fun data ct => by
        cases data with
        | nil => simp [fillBody]
        | cons d rest => simp [fillBody])
      (by simp [fillTags]) (by simp [leafCount])
  | .vnone =>
    exact fillBody_leaf_master .vnone (fun data ct => by
        cases data with
        | nil => simp [fillBody]
        | cons d rest => simp [fillBody])
      (by simp [fillTags]) (by simp [leafCount])
  | .vtype t =>
    exact fillBody_leaf_master (.vtype t) (fun data ct => by
        cases data with
        | nil => simp [fillBody]
        | cons d rest => simp [fillBody])
      (by simp [fillTags]) (by simp [leafCount])
  | .vlist xs =>
    intro data ct
    have hl := fillList_master xs (fun x hx => ih x (by
      have := sizeOf_lt_of_mem_list hx
      simp only [PyVal.vlist.sizeOf_spec]; omega)) data ct
    rw [fillTags, leafCount]
    constructor
    · intro e a h
      exact fillBody_vlist_err xs data ct _ (hl.1 e a h)
    · intro h
      have hb := hl.2 h
      constructor
      · intro hlen
        obtain ⟨ws, hws⟩ := hb.1 hlen
        exact ⟨.vlist ws, fillBody_vlist_ok xs data _ ct ws hws⟩
      · intro hlen
        exact fillBody_vlist_err xs data ct _ (hb.2 hlen)
  | .vtuple xs =>
    intro data ct
    have hl := fillList_master xs (fun x hx => ih x (by
      have := sizeOf_lt_of_mem_list hx
      simp only [PyVal.vtuple.sizeOf_spec]; omega)) data ct
    rw [fillTags, leafCount]
    constructor
    · intro e a h
      exact fillBody_vtuple_err xs data ct _ (hl.1 e a h)
    · intro h
      have hb := hl.2 h
      constructor
      · intro hlen
        obtain ⟨ws, hws⟩ := hb.1 hlen
        exact ⟨.vtuple ws, fillBody_vtuple_ok xs data _ ct ws hws⟩
      · intro hlen
        exact fillBody_vtuple_err xs data ct _ (hb.2 hlen)
  | .vset xs =>
    intro data ct
    have hl := fillList_master xs (fun x hx => ih x (by
      have := sizeOf_lt_of_mem_list hx
      simp only [PyVal.vset.sizeOf_spec]; omega)) data ct
    rw [fillTags, leafCount]
    constructor
    · intro e a h
      exact fillBody_vset_err xs data ct _ (hl.1 e a h)
    · intro h
      have hb := hl.2 h
      constructor
      · intro hlen
        obtain ⟨ws, hws⟩ := hb.1 hlen
        exact ⟨mkSet ws, fillBody_vset_ok xs data _ ct ws hws⟩
      · intro hlen
        exact fillBody_vset_err xs data ct _ (hb.2 hlen)
  | .vodict es =>
    intro data ct
    have hl := fillEntries_master es (fun k x hx => ih x (by
      have := sizeOf_lt_of_mem_entries hx
      simp only [PyVal.vodict.sizeOf_spec]; omega)) data ct
    rw [fillTags, leafCount]
    constructor
    · intro e a h
      exact fillBody_vodict_err es data ct _ (hl.1 e a h)
    · intro h
      have hb := hl.2 h
      constructor
      · intro hlen
        obtain ⟨ws, hws⟩ := hb.1 hlen
        exact ⟨.vodict ws, fillBody_vodict_ok es data _ ct ws hws⟩
      · intro hlen
        exact fillBody_vodict_err es data ct _ (hb.2 hlen)
  | .vdict es =>
    intro data ct
    have hl := fillEntries_master (sortByKey es) (fun k x hx => ih x (by
      have := sizeOf_lt_of_mem_entries (mem_sortByKey hx)
      simp only [PyVal.vdict.sizeOf_spec]; omega)) data ct
    rw [fillTags, leafCount, ← leafCountEntries_sortByKey]
    constructor
    · intro e a h
      exact fillBody_vdict_err es data ct _ (hl.1 e a h)
    · intro h
      have hb := hl.2 h
      constructor
      · intro hlen
        obtain ⟨ws, hws⟩ := hb.1 hlen
        exact ⟨.vdict ws, fillBody_vdict_ok es data _ ct ws hws⟩
      · intro hlen
        exact fillBody_vdict_err es data ct _ (hb.2 hlen)

theorem badAt_false (tags data : List PyVal) :
    badAt false tags data = Option.none := rfl

theorem badAt_true (tags data : List PyVal) :
    badAt true tags data = firstBadTag tags data := rfl

theorem fill_false_eq_body (meta : PyVal) (data : List PyVal) (ct : Bool) :
    _fill_meta_object meta data false ct = fillBody meta data ct := by
  cases h : fillBody meta data ct with
  | error e => rw [_fill_meta_object, h]
  | ok p =>
    obtain ⟨w, rest⟩ := p
    rw [_fill_meta_object, h]
    simp

theorem fill_of_body_err (meta : PyVal) (data : List PyVal) (ct : Bool)
    (e : FillError) (h : fillBody meta data ct = .error e) :
    ∀ afu, _fill_meta_object meta data afu ct = .error e := by
  intro afu
  rw [_fill_meta_object, h]

/-- Claim C4: `_fill_meta_object` consumes exactly one value per leaf
position of the schema (the remaining iterator is the input with exactly
`leafCount` values removed from the front, in consumption order), fails
with the insufficient-data error as soon as the iterator is exhausted
before a leaf is filled, never raises the excess-data error from a nested
(`assert_fully_used=False`) call, and under `assert_fully_used=True`
succeeds exactly when the supplied values number exactly the leaf count,
raising the excess-data error when values remain. -/
theorem fill_leaf_count_contract (meta : PyVal) (data : List PyVal) :
    (∀ ct w rest, _fill_meta_object meta data false ct = .ok (w, rest) →
      rest = data.drop (leafCount meta) ∧ leafCount meta ≤ data.length) ∧
    (data.length < leafCount meta →
      ∀ afu, _fill_meta_object meta data afu false =
        .error .insufficientData) ∧
    (∀ ct, _fill_meta_object meta data false ct ≠ .error .excessData) ∧
    (data.length = leafCount meta →
      ∃ w, _fill_meta_object meta data true false = .ok (w, [])) ∧
    (leafCount meta < data.length →
      _fill_meta_object meta data true false = .error .excessData) := by
  refine ⟨?_, ?_, ?_, ?_, ?_⟩
  · intro ct w rest h
    rw [fill_false_eq_body] at h
    have hm := fillBody_master meta data ct
    cases hb : badAt ct (fillTags meta) data with
    | some r =>
      rw [hm.1 r.1 r.2 (by rw [hb])] at h
      exact absurd h (by simp)
    | none =>
      by_cases hle : leafCount meta ≤ data.length
      · obtain ⟨w2, hw2⟩ := (hm.2 hb).1 hle
        rw [hw2] at h
        injection h with h
        rw [Prod.mk.injEq] at h
        exact ⟨h.2.symm, hle⟩
      · rw [(hm.2 hb).2 (by omega)] at h
        exact absurd h (by simp)
  · intro hlt afu
    have hm := fillBody_master meta data false
    have hins := (hm.2 (badAt_false _ _)).2 hlt
    exact fill_of_body_err meta data false _ hins afu
  · intro ct
    rw [fill_false_eq_body]
    have hm := fillBody_master meta data ct
    cases hb : badAt ct (fillTags meta) data with
    | some r =>
      rw [hm.1 r.1 r.2 (by rw [hb])]
      simp
    | none =>
      by_cases hle : leafCount meta ≤ data.length
      · obtain ⟨w2, hw2⟩ := (hm.2 hb).1 hle
        rw [hw2]
        simp
      · rw [(hm.2 hb).2 (by omega)]
        simp
  · intro heq
    have hm := fillBody_master meta data false
    obtain ⟨w, hw⟩ := (hm.2 (badAt_false _ _)).1 (by omega)
    refine ⟨w, ?_⟩
    rw [_fill_meta_object, hw, ← heq, List.drop_length]
    rfl
  · intro hlt
    have hm := fillBody_master meta data false
    obtain ⟨w, hw⟩ := (hm.2 (badAt_false _ _)).1 (by omega)
    have hlen : (data.drop (leafCount meta)).length =
        data.length - leafCount meta := by simp
    cases hd : data.drop (leafCount meta) with
    | nil =>
      rw [hd] at hlen
      simp at hlen
      omega
    | cons d ds =>
      rw [_fill_meta_object, hw, hd]
      rfl

theorem fill_leaf_count_contract_witness :
    _fill_meta_object (.vlist [.vtype .int, .vtype .int]) [.vint 1]
      true false = .error .insufficientData ∧
    _fill_meta_object (.vlist [.vtype .int]) [.vint 1, .vint 2]
      true false = .error .excessData ∧
    (_fill_meta_object (.vlist [.vtype .int]) [.vint 1]
      false false = .ok (.vlist [.vint 1], []) →
      [] = ([PyVal.vint 1].drop
        (leafCount (.vlist [.vtype .int])))) := by
  refine ⟨?_, ?_, ?_⟩
  · exact (fill_leaf_count_contract (.vlist [.vtype .int, .vtype .int])
      [.vint 1]).2.1 (by simp [leafCount, leafCountList]) true
  · exact (fill_leaf_count_contract (.vlist [.vtype .int])
      [.vint 1, .vint 2]).2.2.2.2 (by simp [leafCount, leafCountList])
  · intro h
    exact ((fill_leaf_count_contract (.vlist [.vtype .int])
      [.vint 1]).1 false _ _ h).1

/-- Claim C5: with `check_types` disabled `_fill_meta_object` never raises
the schema-mismatch error; with `check_types` enabled it raises the
schema-mismatch error exactly when some pulled value disagrees with the
corresponding consumption-ordered tag, and the error names the first
offending tag together with the actual runtime type of the value pulled
for it. -/
theorem fill_type_check (meta : PyVal) (data : List PyVal) :
    (∀ afu e a, _fill_meta_object meta data afu false ≠
      .error (.schemaMismatch e a)) ∧
    (∀ afu e a, _fill_meta_object meta data afu true =
        .error (.schemaMismatch e a) →
      firstBadTag (fillTags meta) data = some (e, a)) ∧
    (∀ afu e a, firstBadTag (fillTags meta) data = some (e, a) →
      _fill_meta_object meta data afu true =
        .error (.schemaMismatch e a)) := by
  refine ⟨?_, ?_, ?_⟩
  · intro afu e a
    have hm := fillBody_master meta data false
    by_cases hle : leafCount meta ≤ data.length
    · obtain ⟨w, hw⟩ := (hm.2 (badAt_false _ _)).1 hle
      rw [_fill_meta_object, hw]
      cases hd : data.drop (leafCount meta) with
      | nil => cases afu <;> simp
      | cons d ds => cases afu <;> simp
    · have hins := (hm.2 (badAt_false _ _)).2 (by omega)
      rw [fill_of_body_err meta data false _ hins afu]
      simp
  · intro afu e a h
    have hm := fillBody_master meta data true
    cases hb : firstBadTag (fillTags meta) data with
    | some r =>
      obtain ⟨e0, a0⟩ := r
      have herr := hm.1 e0 a0 (by rw [badAt_true, hb])
      rw [fill_of_body_err meta data true _ herr afu] at h
      injection h with h
      injection h with h1 h2
      rw [h1, h2]
    | none =>
      by_cases hle : leafCount meta ≤ data.length
      · obtain ⟨w, hw⟩ := (hm.2 (by rw [badAt_true, hb])).1 hle
        rw [_fill_meta_object, hw] at h
        cases hd : data.drop (leafCount meta) with
        | nil =>
          rw [hd] at h
          cases afu <;> simp at h
        | cons d ds =>
          rw [hd] at h
          cases afu <;> simp at h
      · have hins := (hm.2 (by rw [badAt_true, hb])).2 (by omega)
        rw [fill_of_body_err meta data true _ hins afu] at h
        simp at h
  · intro afu e a h
    have hm := fillBody_master meta data true
    have herr := hm.1 e a (by rw [badAt_true, h])
    exact fill_of_body_err meta data true _ herr afu

theorem fill_type_check_witness :
    _fill_meta_object (.vlist [.vtype .int, .vtype .str])
      [.vint 9, .vint 9] true true =
      .error (.schemaMismatch (.vtype .str) .int) ∧
    (∀ e a, _fill_meta_object (.vlist [.vtype .int, .vtype .str])
      [.vint 9, .vint 9] true false ≠ .error (.schemaMismatch e a)) := by
  constructor
  · exact (fill_type_check (.vlist [.vtype .int, .vtype .str])
      [.vint 9, .vint 9]).2.2 true (.vtype .str) .int
      (by
        have ht : fillTags (.vlist [.vtype .int, .vtype .str]) =
            [.vtype .int, .vtype .str] := by
          simp [fillTags, fillTagsList]
        rw [ht]
        rfl)
  · intro e a
    exact (fill_type_check (.vlist [.vtype .int, .vtype .str])
      [.vint 9, .vint 9]).1 true e a

theorem pyEq_refl_leaf (v : PyVal)
    (h : isinstance v _primitive_containers = false) : pyEq v v = true := by
  match v with
  | .vint n => simp [pyEq]
  | .vfloat n => simp [pyEq]
  | .vstr s => simp [pyEq]
  | .vbool b => simp [pyEq]
  | .vnone => simp [pyEq]
  | .vtype t => simp [pyEq]
  | .vlist xs => simp [isinstance, pytype, isSubclass, _primitive_containers] at h
  | .vtuple xs => simp [isinstance, pytype, isSubclass, _primitive_containers] at h
  | .vdict es => simp [isinstance, pytype, isSubclass, _primitive_containers] at h
  | .vodict es => simp [isinstance, pytype, isSubclass, _primitive_containers] at h
  | .vset xs => simp [isinstance, pytype, isSubclass, _primitive_containers] at h

theorem keysDistinct_iff_nodup (es : List (PyKey × PyVal)) :
    keysDistinct es = true ↔ (es.map Prod.fst).Nodup := by
  induction es with
  | nil => simp [keysDistinct]
  | cons q es ih =>
    match q with
    | (k, v) =>
      rw [keysDistinct]
      simp only [List.map_cons, List.nodup_cons, Bool.and_eq_true,
        Bool.not_eq_eq_eq_not, Bool.not_true, List.any_eq_false]
      constructor
      · intro ⟨h1, h2⟩
        refine ⟨?_, ih.mp h2⟩
        intro hk
        obtain ⟨p, hp, hpk⟩ := List.mem_map.mp hk
        have := h1 p hp
        simp [hpk] at this
      · intro ⟨h1, h2⟩
        refine ⟨?_, ih.mpr h2⟩
        intro p hp
        by_cases hk : p.1 = k
        · exact absurd (List.mem_map.mpr ⟨p, hp, hk⟩) h1
        · simp [hk]

theorem keysDistinct_sortByKey (es : List (PyKey × PyVal)) :
    keysDistinct (sortByKey es) = keysDistinct es := by
  have h := List.Perm.nodup_iff (List.Perm.map Prod.fst (perm_sortByKey es))
  rw [Bool.eq_iff_iff, keysDistinct_iff_nodup, keysDistinct_iff_nodup]
  exact h

theorem WFEntries_eq_all (es : List (PyKey × PyVal)) :
    WFEntries es = es.all (fun q => WF q.2) := by
  induction es with
  | nil => rw [WFEntries]; rfl
  | cons q es ih =>
    match q with
    | (k, x) => rw [WFEntries]; simp [ih]

theorem WFEntries_sortByKey (es : List (PyKey × PyVal)) :
    WFEntries (sortByKey es) = WFEntries es := by
  rw [WFEntries_eq_all, WFEntries_eq_all]
  exact all_of_perm _ (perm_sortByKey es)

theorem pyFind_of_mem (es : List (PyKey × PyVal)) (k : PyKey) (v w : PyVal)
    (hd : keysDistinct es = true) (hmem : (k, v) ∈ es)
    (hpy : pyEq w v = true) : pyFind k w es = true := by
  induction es with
  | nil => cases hmem
  | cons q es ih =>
    match q with
    | (k2, v2) =>
      rw [keysDistinct, Bool.and_eq_true] at hd
      rw [pyFind]
      by_cases hk : k = k2
      · rw [if_pos hk]
        cases List.mem_cons.mp hmem with
        | inl heq =>
          rw [Prod.mk.injEq] at heq
          rw [← heq.2]
          exact hpy
        | inr hmem2 =>
          exfalso
          have : es.any (fun q => q.1 == k2) = true :=
            List.any_eq_true.mpr ⟨(k, v), hmem2, by simp [hk]⟩
          simp [this] at hd
      · rw [if_neg hk]
        refine ih hd.2 ?_
        cases List.mem_cons.mp hmem with
        | inl heq =>
          rw [Prod.mk.injEq] at heq
          exact absurd heq.1 hk
        | inr hmem2 => exact hmem2

theorem forall₂_mem_exists : ∀ (ws es : List (PyKey × PyVal)),
    List.Forall₂ (fun p q => p.1 = q.1 ∧ pyEq p.2 q.2 = true) ws es →
    ∀ k w, (k, w) ∈ ws → ∃ v, (k, v) ∈ es ∧ pyEq w v = true := by
  intro ws
  induction ws with
  | nil =>
    intro es h k w hmem
    cases hmem
  | cons p ws ih =>
    intro es h k w hmem
    cases es with
    | nil => cases h
    | cons q es =>
      cases h with
      | cons hpq hrest =>
        cases List.mem_cons.mp hmem with
        | inl heq =>
          refine ⟨q.2, ?_, ?_⟩
          · have hk : k = q.1 := by
              have h1 : (k, w).1 = p.1 := congrArg Prod.fst heq
              simpa using h1.trans hpq.1
            rw [List.mem_cons]
            left
            rw [Prod.ext_iff]
            exact ⟨hk, rfl⟩
          · have hw : w = p.2 := by
              have h2 := congrArg Prod.snd heq
              simpa using h2
            rw [hw]
            exact hpq.2
        | inr hmem2 =>
          obtain ⟨v, hv, hpy⟩ := ih es hrest k w hmem2
          exact ⟨v, List.mem_cons_of_mem _ hv, hpy⟩

theorem pyEqDictSub_of_all (ws es : List (PyKey × PyVal))
    (h : ∀ p ∈ ws, pyFind p.1 p.2 es = true) : pyEqDictSub ws es = true := by
  induction ws with
  | nil => rw [pyEqDictSub]
  | cons p ws ih =>
    match p with
    | (k, w) =>
      rw [pyEqDictSub, Bool.and_eq_true]
      exact ⟨h (k, w) (by simp), ih (fun q hq => h q (by simp [hq]))⟩

theorem pyEqDict_of_forall₂ (ws fs es : List (PyKey × PyVal))
    (hEM : List.Forall₂ (fun p q => p.1 = q.1 ∧ pyEq p.2 q.2 = true) ws fs)
    (hperm : List.Perm fs es) (hd : keysDistinct es = true) :
    pyEqDict ws es = true := by
  rw [pyEqDict, Bool.and_eq_true]
  constructor
  · rw [List.Forall₂.length_eq hEM, List.Perm.length_eq hperm]
    simp
  · refine pyEqDictSub_of_all ws es (fun p hp => ?_)
    obtain ⟨v, hv, hpy⟩ := forall₂_mem_exists ws fs hEM p.1 p.2 (by
      have : p = (p.1, p.2) := rfl
      rw [← this]
      exact hp)
    exact pyFind_of_mem es p.1 v p.2 hd (hperm.mem_iff.mp hv) hpy

theorem sameKeyOrder_of_forall₂ (ws es : List (PyKey × PyVal))
    (hEM : List.Forall₂ (fun p q => p.1 = q.1 ∧ pyEq p.2 q.2 = true) ws es) :
    sameKeyOrder ws es = true := by
  rw [sameKeyOrder]
  have : ws.map Prod.fst = es.map Prod.fst := by
    induction hEM with
    | nil => rfl
    | cons hpq hrest ih => simp [hpq.1, ih]
  simp [this]

theorem gmoEntries_insertSorted (p : PyKey × PyVal)
    (l : List (PyKey × PyVal)) :
    gmoEntries (insertSorted p l) =
      insertSorted (p.1, get_meta_object p.2 _primitive_containers)
        (gmoEntries l) := by
  obtain ⟨k1, x1⟩ := p
  induction l with
  | nil => simp only [insertSorted, gmoEntries]
  | cons q qs ih =>
    match q with
    | (k2, x2) =>
      by_cases h : keyLE k1 k2 = true
      · simp only [insertSorted, gmoEntries, h, if_true]
      · simp only [insertSorted, gmoEntries, h, Bool.false_eq_true, if_false]
        simp [ih]

theorem gmoEntries_sortByKey (es : List (PyKey × PyVal)) :
    gmoEntries (sortByKey es) = sortByKey (gmoEntries es) := by
  induction es with
  | nil => rw [sortByKey, gmoEntries, sortByKey]
  | cons p ps ih =>
    match p with
    | (k, x) =>
      rw [sortByKey, gmoEntries, sortByKey, gmoEntries_insertSorted, ih]

theorem glvList_cons_err (x : PyVal) (xs : List PyVal) (e : String)
    (h : get_leaf_values x _primitive_containers = .error e) :
    glvList (x :: xs) = .error e := by
  rw [glvList, h]

theorem glvList_cons_err2 (x : PyVal) (xs : List PyVal) (lx : List PyVal)
    (e : String) (h1 : get_leaf_values x _primitive_containers = .ok lx)
    (h2 : glvList xs = .error e) : glvList (x :: xs) = .error e := by
  rw [glvList, h1, h2]

theorem glvList_cons_ok (x : PyVal) (xs : List PyVal) (lx lxs : List PyVal)
    (h1 : get_leaf_values x _primitive_containers = .ok lx)
    (h2 : glvList xs = .ok lxs) : glvList (x :: xs) = .ok (lx ++ lxs) := by
  rw [glvList, h1, h2]

theorem glvEntries_cons_err (k : PyKey) (x : PyVal)
    (es : List (PyKey × PyVal)) (e : String)
    (h : get_leaf_values x _primitive_containers = .error e) :
    glvEntries ((k, x) :: es) = .error e := by
  rw [glvEntries, h]

theorem glvEntries_cons_err2 (k : PyKey) (x : PyVal)
    (es : List (PyKey × PyVal)) (lx : List PyVal) (e : String)
    (h1 : get_leaf_values x _primitive_containers = .ok lx)
    (h2 : glvEntries es = .error e) : glvEntries ((k, x) :: es) = .error e := by
  rw [glvEntries, h1, h2]

theorem glvEntries_cons_ok (k : PyKey) (x : PyVal)
    (es : List (PyKey × PyVal)) (lx lxs : List PyVal)
    (h1 : get_leaf_values x _primitive_containers = .ok lx)
    (h2 : glvEntries es = .ok lxs) :
    glvEntries ((k, x) :: es) = .ok (lx ++ lxs) := by
  rw [glvEntries, h1, h2]

theorem roundTripList (xs : List PyVal)
    (ih : ∀ x ∈ xs, hasSet x = false → WF x = true →
      ∀ ls, get_leaf_values x _primitive_containers = .ok ls →
      ∀ rest, ∃ w, fillBody (get_meta_object x _primitive_containers)
        (ls ++ rest) true = .ok (w, rest) ∧ pyEq w x = true)
    (hset : hasSetList xs = false) (hwf : WFList xs = true) :
    ∀ ls, glvList xs = .ok ls →
    ∀ rest, ∃ ws, fillList (gmoList xs) (ls ++ rest) true = .ok (ws, rest) ∧
      pyEqList ws xs = true := by
  induction xs with
  | nil =>
    intro ls hls rest
    rw [glvList] at hls
    injection hls with hls
    subst hls
    exact ⟨[], by rw [gmoList, fillList]; simp, by rw [pyEqList]⟩
  | cons x xs ihl =>
    intro ls hls rest
    rw [hasSetList] at hset
    rw [WFList, Bool.and_eq_true] at hwf
    have hsx : hasSet x = false := by
      revert hset; cases hasSet x <;> simp
    have hsxs : hasSetList xs = false := by
      revert hset; cases hasSetList xs <;> simp
    cases hgx : get_leaf_values x _primitive_containers with
    | error e =>
      rw [glvList_cons_err x xs e hgx] at hls
      exact absurd hls (by simp)
    | ok lx =>
      cases hgxs : glvList xs with
      | error e =>
        rw [glvList_cons_err2 x xs lx e hgx hgxs] at hls
        exact absurd hls (by simp)
      | ok lxs =>
        rw [glvList_cons_ok x xs lx lxs hgx hgxs] at hls
        injection hls with hls
        subst hls
        obtain ⟨w, hw, hpyw⟩ :=
          ih x (by simp) hsx hwf.1 lx hgx (lxs ++ rest)
        obtain ⟨ws, hws, hpyws⟩ :=
          ihl (fun y hy => ih y (by simp [hy])) hsxs hwf.2 lxs hgxs rest
        rw [gmoList, List.append_assoc]
        refine ⟨w :: ws, ?_, ?_⟩
        · rw [fillList_cons_ok _ _ _ _ _ w hw, hws]
        · rw [pyEqList, Bool.and_eq_true]
          exact ⟨hpyw, hpyws⟩

theorem roundTripEntries (es : List (PyKey × PyVal))
    (ih : ∀ k x, (k, x) ∈ es → hasSet x = false → WF x = true →
      ∀ ls, get_leaf_values x _primitive_containers = .ok ls →
      ∀ rest, ∃ w, fillBody (get_meta_object x _primitive_containers)
        (ls ++ rest) true = .ok (w, rest) ∧ pyEq w x = true)
    (hset : hasSetEntries es = false) (hwf : WFEntries es = true) :
    ∀ ls, glvEntries es = .ok ls →
    ∀ rest, ∃ ws, fillEntries (gmoEntries es) (ls ++ rest) true =
        .ok (ws, rest) ∧
      List.Forall₂ (fun p q => p.1 = q.1 ∧ pyEq p.2 q.2 = true) ws es := by
  induction es with
  | nil =>
    intro ls hls rest
    rw [glvEntries] at hls
    injection hls with hls
    subst hls
    exact ⟨[], by rw [gmoEntries, fillEntries]; simp, List.Forall₂.nil⟩
  | cons q es ihl =>
    match q with
    | (k, x) =>
      intro ls hls rest
      rw [hasSetEntries] at hset
      rw [WFEntries, Bool.and_eq_true] at hwf
      have hsx : hasSet x = false := by
        revert hset; cases hasSet x <;> simp
      have hsxs : hasSetEntries es = false := by
        revert hset; cases hasSetEntries es <;> simp
      cases hgx : get_leaf_values x _primitive_containers with
      | error e =>
        rw [glvEntries_cons_err k x es e hgx] at hls
        exact absurd hls (by simp)
      | ok lx =>
        cases hgxs : glvEntries es with
        | error e =>
          rw [glvEntries_cons_err2 k x es lx e hgx hgxs] at hls
          exact absurd hls (by simp)
        | ok lxs =>
          rw [glvEntries_cons_ok k x es lx lxs hgx hgxs] at hls
          injection hls with hls
          subst hls
          obtain ⟨w, hw, hpyw⟩ :=
            ih k x (by simp) hsx hwf.1 lx hgx (lxs ++ rest)
          obtain ⟨ws, hws, hpyws⟩ :=
            ihl (fun k2 y hy => ih k2 y (by simp [hy])) hsxs hwf.2 lxs hgxs rest
          rw [gmoEntries, List.append_assoc]
          refine ⟨(k, w) :: ws, ?_, ?_⟩
          · rw [fillEntries_cons_ok _ _ _ _ _ _ w hw, hws]
          · exact List.Forall₂.cons ⟨rfl, hpyw⟩ hpyws

theorem roundTrip_leaf (v : PyVal)
    (hni : isinstance v _primitive_containers = false) :
    ∀ ls, get_leaf_values v _primitive_containers = .ok ls →
    ∀ rest, ∃ w, fillBody (get_meta_object v _primitive_containers)
      (ls ++ rest) true = .ok (w, rest) ∧ pyEq w v = true := by
  intro ls hls rest
  have hglv : get_leaf_values v _primitive_containers = .ok [v] := by
    rw [get_leaf_values.eq_def]
    simp [hni]
  rw [hglv] at hls
  injection hls with hls
  subst hls
  have hgmo : get_meta_object v _primitive_containers = .vtype (pytype v) := by
    rw [get_meta_object.eq_def]
    simp [hni]
  rw [hgmo]
  refine ⟨v, ?_, pyEq_refl_leaf v hni⟩
  rw [fillBody.eq_def]
  simp [tagIs]

theorem roundTripVal (v : PyVal) :
    hasSet v = false → WF v = true →
    ∀ ls, get_leaf_values v _primitive_containers = .ok ls →
    ∀ rest, ∃ w, fillBody (get_meta_object v _primitive_containers)
      (ls ++ rest) true = .ok (w, rest) ∧ pyEq w v = true := by
  refine sizeOfStrongInduction (fun v => hasSet v = false → WF v = true →
    ∀ ls, get_leaf_values v _primitive_containers = .ok ls →
    ∀ rest, ∃ w, fillBody (get_meta_object v _primitive_containers)
      (ls ++ rest) true = .ok (w, rest) ∧ pyEq w v = true) ?_ v
  intro v ihs
  match v with
  | .vint n => intro _ _; exact roundTrip_leaf _ rfl
  | .vfloat n => intro _ _; exact roundTrip_leaf _ rfl
  | .vstr s => intro _ _; exact roundTrip_leaf _ rfl
  | .vbool b => intro _ _; exact roundTrip_leaf _ rfl
  | .vnone => intro _ _; exact roundTrip_leaf _ rfl
  | .vtype t => intro _ _; exact roundTrip_leaf _ rfl
  | .vset xs =>
    intro hset _
    rw [hasSet] at hset
    exact absurd hset (by simp)
  | .vlist xs =>
    intro hset hwf ls hls rest
    rw [hasSet] at hset
    rw [WF] at hwf
    have hglv : get_leaf_values (.vlist xs) _primitive_containers =
        glvList xs := by
      rw [get_leaf_values.eq_def]
      simp [isinstance, pytype, isSubclass, _primitive_containers]
    rw [hglv] at hls
    have hgmo : get_meta_object (.vlist xs) _primitive_containers =
        .vlist (gmoList xs) := by
      rw [get_meta_object.eq_def]
      simp [isinstance, pytype, isSubclass, _primitive_containers]
    rw [hgmo]
    obtain ⟨ws, hws, hpyws⟩ := roundTripList xs
      (fun x hx => ihs x (by
        have := sizeOf_lt_of_mem_list hx
        simp only [PyVal.vlist.sizeOf_spec]; omega))
      hset hwf ls hls rest
    refine ⟨.vlist ws, fillBody_vlist_ok _ _ _ _ _ hws, ?_⟩
    rw [pyEq]
    exact hpyws
  | .vtuple xs =>
    intro hset hwf ls hls rest
    rw [hasSet] at hset
    rw [WF] at hwf
    have hglv : get_leaf_values (.vtuple xs) _primitive_containers =
        glvList xs := by
      rw [get_leaf_values.eq_def]
      simp [isinstance, pytype, isSubclass, _primitive_containers]
    rw [hglv] at hls
    have hgmo : get_meta_object (.vtuple xs) _primitive_containers =
        .vtuple (gmoList xs) := by
      rw [get_meta_object.eq_def]
      simp [isinstance, pytype, isSubclass, _primitive_containers]
    rw [hgmo]
    obtain ⟨ws, hws, hpyws⟩ := roundTripList xs
      (fun x hx => ihs x (by
        have := sizeOf_lt_of_mem_list hx
        simp only [PyVal.vtuple.sizeOf_spec]; omega))
      hset hwf ls hls rest
    refine ⟨.vtuple ws, fillBody_vtuple_ok _ _ _ _ _ hws, ?_⟩
    rw [pyEq]
    exact hpyws
  | .vodict es =>
    intro hset hwf ls hls rest
    rw [hasSet] at hset
    rw [WF, Bool.and_eq_true] at hwf
    have hglv : get_leaf_values (.vodict es) _primitive_containers =
        glvEntries es := by
      rw [get_leaf_values.eq_def]
      simp [isinstance, pytype, isSubclass, _primitive_containers]
    rw [hglv] at hls
    have hgmo : get_meta_object (.vodict es) _primitive_containers =
        .vodict (gmoEntries es) := by
      rw [get_meta_object.eq_def]
      simp [isinstance, pytype, isSubclass, _primitive_containers]
    rw [hgmo]
    obtain ⟨ws, hws, hEM⟩ := roundTripEntries es
      (fun k x hx => ihs x (by
        have := sizeOf_lt_of_mem_entries hx
        simp only [PyVal.vodict.sizeOf_spec]; omega))
      hset hwf.2 ls hls rest
    refine ⟨.vodict ws, fillBody_vodict_ok _ _ _ _ _ hws, ?_⟩
    rw [pyEq, Bool.and_eq_true]
    exact ⟨pyEqDict_of_forall₂ ws es es hEM (List.Perm.refl es) hwf.1,
      sameKeyOrder_of_forall₂ ws es hEM⟩
  | .vdict es =>
    intro hset hwf ls hls rest
    rw [hasSet] at hset
    rw [WF, Bool.and_eq_true] at hwf
    have hglv : get_leaf_values (.vdict es) _primitive_containers =
        glvEntries (sortByKey es) := by
      rw [get_leaf_values.eq_def]
      simp [isinstance, pytype, isSubclass, _primitive_containers]
    rw [hglv] at hls
    have hgmo : get_meta_object (.vdict es) _primitive_containers =
        .vdict (gmoEntries es) := by
      rw [get_meta_object.eq_def]
      simp [isinstance, pytype, isSubclass, _primitive_containers]
    rw [hgmo]
    have hset2 : hasSetEntries (sortByKey es) = false := by
      rw [hasSetEntries_sortByKey]; exact hset
    have hwf2 : WFEntries (sortByKey es) = true := by
      rw [WFEntries_sortByKey]; exact hwf.2
    obtain ⟨ws, hws, hEM⟩ := roundTripEntries (sortByKey es)
      (fun k x hx => ihs x (by
        have := sizeOf_lt_of_mem_entries (mem_sortByKey hx)
        simp only [PyVal.vdict.sizeOf_spec]; omega))
      hset2 hwf2 ls hls rest
    rw [gmoEntries_sortByKey] at hws
    refine ⟨.vdict ws, fillBody_vdict_ok _ _ _ _ _ hws, ?_⟩
    rw [pyEq]
    exact pyEqDict_of_forall₂ ws (sortByKey es) es hEM (perm_sortByKey es)
      hwf.1

/-- Claim C1: round trip — for every Python-representable value built
only from the supported container kinds and leaf types, and containing no
set (the set-extraction limitation), extracting the leaves, deriving the
schema, and filling the schema with an iterator over those leaves with
`check_types=True` succeeds, consumes the iterator exactly, and rebuilds
a value Python-equal (`==`) to the original. -/
theorem round_trip (v : PyVal) (hset : hasSet v = false)
    (hwf : WF v = true) :
    ∃ leaves w, get_leaf_values v _primitive_containers = .ok leaves ∧
      _fill_meta_object (get_meta_object v _primitive_containers) leaves
        true true = .ok (w, []) ∧ pyEq w v = true := by
  obtain ⟨leaves, hleaves⟩ := (glv_hasSet v).2 hset
  obtain ⟨w, hw, hpy⟩ := roundTripVal v hset hwf leaves hleaves []
  rw [List.append_nil] at hw
  refine ⟨leaves, w, hleaves, ?_, hpy⟩
  rw [_fill_meta_object, hw]
  rfl

theorem round_trip_witness :
    hasSet (.vlist [.vint 1, .vint 2,
      .vdict [(.kstr "a", .vtuple [.vint 3, .vint 4]),
              (.kstr "b", .vstr "x")]]) = false ∧
    WF (.vlist [.vint 1, .vint 2,
      .vdict [(.kstr "a", .vtuple [.vint 3, .vint 4]),
              (.kstr "b", .vstr "x")]]) = true ∧
    (∃ leaves w, get_leaf_values (.vlist [.vint 1, .vint 2,
        .vdict [(.kstr "a", .vtuple [.vint 3, .vint 4]),
                (.kstr "b", .vstr "x")]]) _primitive_containers =
        .ok leaves ∧
      _fill_meta_object (get_meta_object (.vlist [.vint 1, .vint 2,
        .vdict [(.kstr "a", .vtuple [.vint 3, .vint 4]),
                (.kstr "b", .vstr "x")]]) _primitive_containers) leaves
        true true = .ok (w, []) ∧
      pyEq w (.vlist [.vint 1, .vint 2,
        .vdict [(.kstr "a", .vtuple [.vint 3, .vint 4]),
                (.kstr "b", .vstr "x")]]) = true) := by
  refine ⟨?_, ?_, ?_⟩
  · simp [hasSet, hasSetList, hasSetEntries]
  · simp [WF, WFList, WFEntries, keysDistinct]
  · exact round_trip _ (by simp [hasSet, hasSetList, hasSetEntries])
      (by simp [WF, WFList, WFEntries, keysDistinct])

theorem keyLE_total (a b : PyKey) : keyLE a b = true ∨ keyLE b a = true := by
  match a, b with
  | .kint x, .kint y =>
    rw [keyLE, keyLE]
    simp only [decide_eq_true_eq]
    omega
  | .kint x, .kstr y => left; rfl
  | .kstr x, .kint y => right; rfl
  | .kstr x, .kstr y =>
    rw [keyLE, keyLE]
    simp only [Bool.or_eq_true, decide_eq_true_eq]
    rcases lt_trichotomy x y with h | h | h
    · exact Or.inl (Or.inl h)
    · exact Or.inl (Or.inr h)
    · exact Or.inr (Or.inl h)

theorem keyLE_antisymm (a b : PyKey) (h1 : keyLE a b = true)
    (h2 : keyLE b a = true) : a = b := by
  match a, b with
  | .kint x, .kint y =>
    rw [keyLE] at h1 h2
    simp only [decide_eq_true_eq] at h1 h2
    have : x = y := le_antisymm h1 h2
    rw [this]
  | .kint x, .kstr y => cases h2
  | .kstr x, .kint y => cases h1
  | .kstr x, .kstr y =>
    rw [keyLE] at h1 h2
    simp only [Bool.or_eq_true, decide_eq_true_eq] at h1 h2
    have : x = y := by
      rcases h1 with h1 | h1
      · rcases h2 with h2 | h2
        · exact absurd (lt_trans h1 h2) (lt_irrefl x)
        · exact h2.symm
      · exact h1
    rw [this]

theorem keyLE_trans (a b c : PyKey) (h1 : keyLE a b = true)
    (h2 : keyLE b c = true) : keyLE a c = true := by
  match a, b, c with
  | .kint x, .kint y, .kint z =>
    rw [keyLE] at h1 h2 ⊢
    simp only [decide_eq_true_eq] at h1 h2 ⊢
    omega
  | .kint x, .kint y, .kstr z => rfl
  | .kint x, .kstr y, .kint z => cases h2
  | .kint x, .kstr y, .kstr z => rfl
  | .kstr x, .kint y, _ => cases h1
  | .kstr x, .kstr y, .kint z => cases h2
  | .kstr x, .kstr y, .kstr z =>
    rw [keyLE] at h1 h2 ⊢
    simp only [Bool.or_eq_true, decide_eq_true_eq] at h1 h2 ⊢
    rcases h1 with h1 | h1
    · rcases h2 with h2 | h2
      · exact Or.inl (lt_trans h1 h2)
      · exact Or.inl (h2 ▸ h1)
    · rcases h2 with h2 | h2
      · exact Or.inl (h1 ▸ h2)
      · exact Or.inr (h1.trans h2)

theorem pairwise_keyLE_insertSorted (p : PyKey × PyVal)
    (l : List (PyKey × PyVal))
    (hl : List.Pairwise (fun q r => keyLE q.1 r.1 = true) l) :
    List.Pairwise (fun q r => keyLE q.1 r.1 = true) (insertSorted p l) := by
  induction l with
  | nil => simp [insertSorted]
  | cons q qs ih =>
    rw [List.pairwise_cons] at hl
    by_cases h : keyLE p.1 q.1 = true
    · rw [insertSorted, if_pos h]
      rw [List.pairwise_cons]
      refine ⟨?_, List.pairwise_cons.mpr hl⟩
      intro r hr
      cases List.mem_cons.mp hr with
      | inl heq => rw [heq]; exact h
      | inr hmem =>
        have hq := hl.1 r hmem
        -- keyLE p q and keyLE q r: transitivity needed
        exact keyLE_trans p.1 q.1 r.1 h hq
    · rw [insertSorted, if_neg h]
      rw [List.pairwise_cons]
      constructor
      · intro r hr
        have := (perm_insertSorted p qs).mem_iff.mp hr
        cases List.mem_cons.mp this with
        | inl heq =>
          rw [heq]
          rcases keyLE_total p.1 q.1 with hh | hh
          · exact absurd hh h
          · exact hh
        | inr hmem => exact hl.1 r hmem
      · exact ih hl.2

theorem pairwise_keyLE_sortByKey (l : List (PyKey × PyVal)) :
    List.Pairwise (fun q r => keyLE q.1 r.1 = true) (sortByKey l) := by
  induction l with
  | nil => simp [sortByKey]
  | cons p ps ih =>
    rw [sortByKey]
    exact pairwise_keyLE_insertSorted p (sortByKey ps) ih

theorem sortByKey_eq_of_perm (es fs : List (PyKey × PyVal))
    (hperm : List.Perm es fs) (hd : keysDistinct es = true) :
    sortByKey es = sortByKey fs := by
  have hd2 : keysDistinct fs = true := by
    rw [keysDistinct_iff_nodup] at hd ⊢
    exact (List.Perm.nodup_iff (List.Perm.map Prod.fst hperm)).mp hd
  have hp : List.Perm (sortByKey es) (sortByKey fs) :=
    ((perm_sortByKey es).trans hperm).trans (perm_sortByKey fs).symm
  have hstrict : ∀ l : List (PyKey × PyVal), keysDistinct l = true →
      List.Pairwise
        (fun q r : PyKey × PyVal => keyLE q.1 r.1 = true ∧ q.1 ≠ r.1)
        (sortByKey l) := by
    intro l hl
    have h1 := pairwise_keyLE_sortByKey l
    have h2 : (sortByKey l).Pairwise
        (fun q r : PyKey × PyVal => q.1 ≠ r.1) := by
      have : ((sortByKey l).map Prod.fst).Nodup := by
        rw [← keysDistinct_iff_nodup, keysDistinct_sortByKey]
        exact hl
      rw [List.Nodup, List.pairwise_map] at this
      exact this
    exact h1.and h2
  haveI : IsAntisymm (PyKey × PyVal)
      (fun q r : PyKey × PyVal => keyLE q.1 r.1 = true ∧ q.1 ≠ r.1) := by
    constructor
    intro a b h1 h2
    exact absurd (keyLE_antisymm a.1 b.1 h1.1 h2.1) h1.2
  exact List.eq_of_perm_of_sorted hp (hstrict es hd) (hstrict fs hd2)

theorem structIdentEntries_insertSorted (k : PyKey) (v w : PyVal)
    (hvw : StructIdent v w) :
    ∀ l l0, StructIdentEntries l l0 →
      StructIdentEntries (insertSorted (k, v) l) (insertSorted (k, w) l0) := by
  intro l
  induction l with
  | nil =>
    intro l0 h
    cases h
    rw [insertSorted, insertSorted]
    exact StructIdentEntries.cons k v w [] [] hvw StructIdentEntries.nil
  | cons q qs ih =>
    intro l0 h
    match q with
    | (k2, v2) =>
      cases h with
      | cons _ _ w2 _ fs hq hrest =>
        rw [insertSorted, insertSorted]
        by_cases hk : keyLE k k2 = true
        · rw [if_pos hk, if_pos hk]
          exact StructIdentEntries.cons k v w _ _ hvw
            (StructIdentEntries.cons k2 v2 w2 qs fs hq hrest)
        · rw [if_neg hk, if_neg hk]
          exact StructIdentEntries.cons k2 v2 w2 _ _ hq (ih fs hrest)

theorem structIdentEntries_sortByKey : ∀ es fs : List (PyKey × PyVal),
    StructIdentEntries es fs →
    StructIdentEntries (sortByKey es) (sortByKey fs) := by
  intro es
  induction es with
  | nil =>
    intro fs h
    cases h
    rw [sortByKey]
    exact StructIdentEntries.nil
  | cons q qs ih =>
    intro fs h
    match q with
    | (k2, v2) =>
      cases h with
      | cons _ _ w2 _ fs2 hq hrest =>
        rw [sortByKey, sortByKey]
        exact structIdentEntries_insertSorted k2 v2 w2 hq _ _ (ih fs2 hrest)

theorem structIdentEntries_keys : ∀ es fs : List (PyKey × PyVal),
    StructIdentEntries es fs → es.map Prod.fst = fs.map Prod.fst := by
  intro es
  induction es with
  | nil =>
    intro fs h
    cases h
    rfl
  | cons q qs ih =>
    intro fs h
    match q with
    | (k, v) =>
      cases h with
      | cons _ _ w _ fs2 hq hrest =>
        simp [ih fs2 hrest]

theorem structIdentList_glv (xs : List PyVal)
    (ih : ∀ x ∈ xs, ∀ y, StructIdent x y → WF x = true → WF y = true →
      ∃ l, get_leaf_values x _primitive_containers = .ok l ∧
        get_leaf_values y _primitive_containers = .ok l) :
    ∀ ys, StructIdentList xs ys → WFList xs = true → WFList ys = true →
    ∃ l, glvList xs = .ok l ∧ glvList ys = .ok l := by
  induction xs with
  | nil =>
    intro ys h _ _
    cases h
    exact ⟨[], by rw [glvList], by rw [glvList]⟩
  | cons x xs ihl =>
    intro ys h hwf1 hwf2
    cases h with
    | cons _ y2 _ ys2 hxy hrest =>
      rw [WFList, Bool.and_eq_true] at hwf1 hwf2
      obtain ⟨l1, hl1, hl1b⟩ := ih x (by simp) y2 hxy hwf1.1 hwf2.1
      obtain ⟨l2, hl2, hl2b⟩ :=
        ihl (fun z hz => ih z (by simp [hz])) ys2 hrest hwf1.2 hwf2.2
      exact ⟨l1 ++ l2, glvList_cons_ok _ _ _ _ hl1 hl2,
        glvList_cons_ok _ _ _ _ hl1b hl2b⟩

theorem structIdentEntries_glv (es : List (PyKey × PyVal))
    (ih : ∀ k x, (k, x) ∈ es → ∀ y, StructIdent x y → WF x = true →
      WF y = true →
      ∃ l, get_leaf_values x _primitive_containers = .ok l ∧
        get_leaf_values y _primitive_containers = .ok l) :
    ∀ fs, StructIdentEntries es fs → WFEntries es = true →
      WFEntries fs = true →
    ∃ l, glvEntries es = .ok l ∧ glvEntries fs = .ok l := by
  induction es with
  | nil =>
    intro fs h _ _
    cases h
    exact ⟨[], by rw [glvEntries], by rw [glvEntries]⟩
  | cons q qs ihl =>
    intro fs h hwf1 hwf2
    match q with
    | (k, x) =>
      cases h with
      | cons _ _ y2 _ fs2 hxy hrest =>
        rw [WFEntries, Bool.and_eq_true] at hwf1 hwf2
        obtain ⟨l1, hl1, hl1b⟩ := ih k x (by simp) y2 hxy hwf1.1 hwf2.1
        obtain ⟨l2, hl2, hl2b⟩ :=
          ihl (fun k2 z hz => ih k2 z (by simp [hz])) fs2 hrest hwf1.2 hwf2.2
        exact ⟨l1 ++ l2, glvEntries_cons_ok _ _ _ _ _ hl1 hl2,
          glvEntries_cons_ok _ _ _ _ _ hl1b hl2b⟩

theorem structIdent_glv (v1 : PyVal) : ∀ v2, StructIdent v1 v2 →
    WF v1 = true → WF v2 = true →
    ∃ l, get_leaf_values v1 _primitive_containers = .ok l ∧
      get_leaf_values v2 _primitive_containers = .ok l := by
  refine sizeOfStrongInduction (fun v1 => ∀ v2, StructIdent v1 v2 →
    WF v1 = true → WF v2 = true →
    ∃ l, get_leaf_values v1 _primitive_containers = .ok l ∧
      get_leaf_values v2 _primitive_containers = .ok l) ?_ v1
  intro v1 ihs v2 h hwf1 hwf2
  cases h with
  | leaf _ hni =>
    refine ⟨[v1], ?_, ?_⟩ <;>
      (rw [get_leaf_values.eq_def]; simp [hni])
  | list _ ys hl =>
    rename_i xs
    rw [WF] at hwf1 hwf2
    obtain ⟨l, hl1, hl2⟩ := structIdentList_glv xs
      (fun x hx => ihs x (by
        have := sizeOf_lt_of_mem_list hx
        simp only [PyVal.vlist.sizeOf_spec]; omega))
      ys hl hwf1 hwf2
    refine ⟨l, ?_, ?_⟩ <;> rw [get_leaf_values.eq_def] <;>
      simp [isinstance, pytype, isSubclass, _primitive_containers] <;>
      assumption
  | tup _ ys hl =>
    rename_i xs
    rw [WF] at hwf1 hwf2
    obtain ⟨l, hl1, hl2⟩ := structIdentList_glv xs
      (fun x hx => ihs x (by
        have := sizeOf_lt_of_mem_list hx
        simp only [PyVal.vtuple.sizeOf_spec]; omega))
      ys hl hwf1 hwf2
    refine ⟨l, ?_, ?_⟩ <;> rw [get_leaf_values.eq_def] <;>
      simp [isinstance, pytype, isSubclass, _primitive_containers] <;>
      assumption
  | odict _ fs hSIE =>
    rename_i es
    rw [WF, Bool.and_eq_true] at hwf1 hwf2
    obtain ⟨l, hl1, hl2⟩ := structIdentEntries_glv es
      (fun k x hx => ihs x (by
        have := sizeOf_lt_of_mem_entries hx
        simp only [PyVal.vodict.sizeOf_spec]; omega))
      fs hSIE hwf1.2 hwf2.2
    refine ⟨l, ?_, ?_⟩ <;> rw [get_leaf_values.eq_def] <;>
      simp [isinstance, pytype, isSubclass, _primitive_containers] <;>
      assumption
  | dict _ es0 fs hSIE hperm =>
    rename_i es
    rw [WF, Bool.and_eq_true] at hwf1 hwf2
    have hkeys : es.map Prod.fst = es0.map Prod.fst :=
      structIdentEntries_keys es es0 hSIE
    have hd0 : keysDistinct es0 = true := by
      rw [keysDistinct_iff_nodup, ← hkeys, ← keysDistinct_iff_nodup]
      exact hwf1.1
    have hsorteq : sortByKey es0 = sortByKey fs :=
      sortByKey_eq_of_perm es0 fs hperm hd0
    have hSIEs : StructIdentEntries (sortByKey es) (sortByKey fs) := by
      rw [← hsorteq]
      exact structIdentEntries_sortByKey es es0 hSIE
    have hwfs1 : WFEntries (sortByKey es) = true := by
      rw [WFEntries_sortByKey]; exact hwf1.2
    have hwfs2 : WFEntries (sortByKey fs) = true := by
      rw [WFEntries_sortByKey]; exact hwf2.2
    obtain ⟨l, hl1, hl2⟩ := structIdentEntries_glv (sortByKey es)
      (fun k x hx => ihs x (by
        have := sizeOf_lt_of_mem_entries (mem_sortByKey hx)
        simp only [PyVal.vdict.sizeOf_spec]; omega))
      (sortByKey fs) hSIEs hwfs1 hwfs2
    refine ⟨l, ?_, ?_⟩ <;> rw [get_leaf_values.eq_def] <;>
      simp [isinstance, pytype, isSubclass, _primitive_containers] <;>
      assumption

/-- Claim C7 (amended): two values with the same container kinds at every
level whose mappings hold the same keys and the same leaf values — a
plain dict's entries may appear in a different insertion order at any
depth, while an `OrderedDict`'s entry order is part of its identity —
yield literally identical leaf sequences; in particular leaf extraction
from a plain dict does not depend on insertion history (values are read
in sorted-key order).  A plain dict and an `OrderedDict` with the same
entries are NOT interchangeable (see the counterexample). -/
theorem mapping_order_det (v1 v2 : PyVal) (h : StructIdent v1 v2)
    (hwf1 : WF v1 = true) (hwf2 : WF v2 = true) :
    ∃ l, get_leaf_values v1 _primitive_containers = .ok l ∧
      get_leaf_values v2 _primitive_containers = .ok l :=
  structIdent_glv v1 v2 h hwf1 hwf2

theorem mapping_order_det_witness :
    ∃ l, get_leaf_values
        (.vdict [(.kstr "a", .vint 1), (.kstr "b", .vint 2)])
        _primitive_containers = .ok l ∧
      get_leaf_values
        (.vdict [(.kstr "b", .vint 2), (.kstr "a", .vint 1)])
        _primitive_containers = .ok l := by
  refine mapping_order_det _ _ ?_ ?_ ?_
  · refine StructIdent.dict
      [(.kstr "a", .vint 1), (.kstr "b", .vint 2)]
      [(.kstr "a", .vint 1), (.kstr "b", .vint 2)]
      [(.kstr "b", .vint 2), (.kstr "a", .vint 1)] ?_ ?_
    · exact StructIdentEntries.cons (.kstr "a") (.vint 1) (.vint 1) _ _
        (StructIdent.leaf _ rfl)
        (StructIdentEntries.cons (.kstr "b") (.vint 2) (.vint 2) [] []
          (StructIdent.leaf _ rfl) StructIdentEntries.nil)
    · exact List.Perm.swap _ _ _
  · simp [WF, WFEntries, keysDistinct]
  · simp [WF, WFEntries, keysDistinct]

/-- Claim C7 (counterexample): an `OrderedDict` and a plain dict holding
the same keys mapped to the same values are structurally identical
mappings in the claim's sense — Python itself deems them `==` — yet
extraction reads the `OrderedDict` in insertion order and the plain dict
in sorted-key order, producing different leaf sequences. -/
theorem mapping_order_cex :
    pyEq (.vodict [(.kstr "b", .vint 1), (.kstr "a", .vint 2)])
      (.vdict [(.kstr "b", .vint 1), (.kstr "a", .vint 2)]) = true ∧
    get_leaf_values (.vodict [(.kstr "b", .vint 1), (.kstr "a", .vint 2)])
      _primitive_containers = .ok [.vint 1, .vint 2] ∧
    get_leaf_values (.vdict [(.kstr "b", .vint 1), (.kstr "a", .vint 2)])
      _primitive_containers = .ok [.vint 2, .vint 1] ∧
    pyEqList [.vint 1, .vint 2] [.vint 2, .vint 1] = false := by
  have hleaf : ∀ n : Int, get_leaf_values (.vint n) _primitive_containers =
      .ok [.vint n] := fun n => by
    rw [get_leaf_values.eq_def]
    simp [isinstance, pytype, isSubclass, _primitive_containers]
  have hba : glvEntries [(PyKey.kstr "b", PyVal.vint 1),
      (PyKey.kstr "a", PyVal.vint 2)] = .ok [.vint 1, .vint 2] := by
    have h2 : glvEntries [(PyKey.kstr "a", PyVal.vint 2)] =
        .ok ([.vint 2] ++ []) :=
      glvEntries_cons_ok _ _ [] _ _ (hleaf 2) (by rw [glvEntries])
    have h1 := glvEntries_cons_ok (PyKey.kstr "b") (PyVal.vint 1)
      [(PyKey.kstr "a", PyVal.vint 2)] _ _ (hleaf 1) h2
    simpa using h1
  have hab : glvEntries [(PyKey.kstr "a", PyVal.vint 2),
      (PyKey.kstr "b", PyVal.vint 1)] = .ok [.vint 2, .vint 1] := by
    have h2 : glvEntries [(PyKey.kstr "b", PyVal.vint 1)] =
        .ok ([.vint 1] ++ []) :=
      glvEntries_cons_ok _ _ [] _ _ (hleaf 1) (by rw [glvEntries])
    have h1 := glvEntries_cons_ok (PyKey.kstr "a") (PyVal.vint 2)
      [(PyKey.kstr "b", PyVal.vint 1)] _ _ (hleaf 2) h2
    simpa using h1
  have hkba : keyLE (PyKey.kstr "b") (PyKey.kstr "a") = false := by
    rw [keyLE]; simp; decide
  have hsort : sortByKey [(PyKey.kstr "b", PyVal.vint 1),
      (PyKey.kstr "a", PyVal.vint 2)] =
      [(PyKey.kstr "a", PyVal.vint 2), (PyKey.kstr "b", PyVal.vint 1)] := by
    rw [sortByKey, sortByKey, sortByKey]
    rw [insertSorted]
    rw [insertSorted, hkba]
    simp [insertSorted]
  refine ⟨?_, ?_, ?_, ?_⟩
  · rw [pyEq, pyEqDict]
    simp [pyEqDictSub, pyFind, pyEq]
  · rw [get_leaf_values.eq_def]
    simp [isinstance, pytype, isSubclass, _primitive_containers]
    exact hba
  · rw [get_leaf_values.eq_def]
    simp [isinstance, pytype, isSubclass, _primitive_containers]
    rw [hsort]
    exact hab
  · simp [pyEqList, pyEq]

theorem flattenChildren_memo_mono (h : Heap) (fuel : Nat)
    (hobj : ∀ i memo, memo ⊆ (flattenObj h fuel i memo).2) :
    ∀ cs idx memo, memo ⊆ (flattenChildren h fuel idx cs memo).2 := by
  intro cs
  induction cs with
  | nil =>
    intro idx memo
    rw [flattenChildren]
    exact fun a ha => ha
  | cons c cs ih =>
    intro idx memo
    rw [flattenChildren]
    show memo ⊆
      (flattenChildren h fuel (idx + 1) cs (flattenObj h fuel c memo).2).2
    intro a ha
    exact ih (idx + 1) _ (hobj c memo ha)

theorem flattenKeyed_memo_mono (h : Heap) (fuel : Nat) (pre post : String)
    (hobj : ∀ i memo, memo ⊆ (flattenObj h fuel i memo).2) :
    ∀ es memo, memo ⊆ (flattenKeyed h fuel pre post es memo).2 := by
  intro es
  induction es with
  | nil =>
    intro memo
    rw [flattenKeyed]
    exact fun a ha => ha
  | cons q es ih =>
    match q with
    | (k, c) =>
      intro memo
      rw [flattenKeyed]
      show memo ⊆
        (flattenKeyed h fuel pre post es (flattenObj h fuel c memo).2).2
      intro a ha
      exact ih _ (hobj c memo ha)

theorem flattenObj_memo_mono (h : Heap) :
    ∀ fuel i memo, memo ⊆ (flattenObj h fuel i memo).2 := by
  intro fuel
  induction fuel with
  | zero =>
    intro i memo
    rw [flattenObj]
    by_cases hm : i ∈ memo
    · simp [hm]
    · simp [hm]
  | succ fuel ih =>
    intro i memo
    rw [flattenObj]
    by_cases hm : i ∈ memo
    · simp [hm]
    · cases hf : heapFind h i with
      | none =>
        simp [hm, hf, List.subset_cons_self]
      | some node =>
        cases node with
        | fleaf p => simp [hm, hf, List.subset_cons_self]
        | flist cs =>
          simp only [hm, if_false, hf]
          intro a ha
          exact flattenChildren_memo_mono h fuel ih cs 0 (i :: memo)
            (List.mem_cons_of_mem _ ha)
        | fdict es =>
          simp only [hm, if_false, hf]
          intro a ha
          exact flattenKeyed_memo_mono h fuel _ _ ih es (i :: memo)
            (List.mem_cons_of_mem _ ha)
        | fobj as =>
          simp only [hm, if_false, hf]
          intro a ha
          exact flattenKeyed_memo_mono h fuel _ _ ih as (i :: memo)
            (List.mem_cons_of_mem _ ha)
        | fplain => simp [hm, hf, List.subset_cons_self]

/-- Claim C8 (amended): with duplicate detection enabled, the identity of
EVERY visited object — leaf or container — is recorded in the visit memo
before the type dispatch (the primitives check included); a reference to
an already-recorded identity yields exactly one already-seen sentinel
entry, leaves the memo unchanged and is not re-traversed; a leaf is
emitted as itself exactly on its first visit, its identity being recorded
as well; and a container's identity is recorded before its children are
decomposed, so the walk can never descend into it again. -/
theorem flatten_struct_repeat_detection (h : Heap) :
    (∀ fuel i memo, i ∈ memo →
      flattenObj h fuel i memo = ([(Option.none, .seen i)], memo)) ∧
    (∀ fuel i memo p, i ∉ memo → heapFind h i = some (.fleaf p) →
      flattenObj h (fuel + 1) i memo =
        ([(Option.none, .val p)], i :: memo)) ∧
    (∀ fuel i memo cs, i ∉ memo → heapFind h i = some (.flist cs) →
      flattenObj h (fuel + 1) i memo =
        flattenChildren h fuel 0 cs (i :: memo) ∧
      i ∈ (flattenObj h (fuel + 1) i memo).2) := by
  refine ⟨?_, ?_, ?_⟩
  · intro fuel i memo hm
    rw [flattenObj.eq_def]
    simp [hm]
  · intro fuel i memo p hm hf
    rw [flattenObj]
    simp [hm, hf]
  · intro fuel i memo cs hm hf
    have heq : flattenObj h (fuel + 1) i memo =
        flattenChildren h fuel 0 cs (i :: memo) := by
      rw [flattenObj]
      simp [hm, hf]
    refine ⟨heq, ?_⟩
    rw [heq]
    exact flattenChildren_memo_mono h fuel (flattenObj_memo_mono h fuel)
      cs 0 (i :: memo) (List.mem_cons_self i memo)

theorem flatten_struct_repeat_detection_witness :
    flattenObj [(0, .flist [1, 1]), (1, .fleaf (.vint 5))] 5 1 [1, 0] =
      ([(Option.none, .seen 1)], [1, 0]) ∧
    flattenObj [(0, .flist [1, 1]), (1, .fleaf (.vint 5))] 2 1 [0] =
      ([(Option.none, .val (.vint 5))], [1, 0]) ∧
    flattenObj [(0, .flist [1, 1]), (1, .fleaf (.vint 5))] 3 0 [] =
      flattenChildren [(0, .flist [1, 1]), (1, .fleaf (.vint 5))] 2 0
        [1, 1] [0] := by
  refine ⟨?_, ?_, ?_⟩
  · exact (flatten_struct_repeat_detection _).1 5 1 [1, 0] (by simp)
  · exact (flatten_struct_repeat_detection _).2.1 1 1 [0] (.vint 5)
      (by simp) (by rw [heapFind, heapFind]; simp)
  · exact ((flatten_struct_repeat_detection _).2.2 2 0 [] [1, 1]
      (by simp) (by rw [heapFind]; simp)).1

/-- Claim C8 (counterexample): the identity of a *leaf* object is also
recorded in the memo (line 29 runs before the primitives check on line
32), so in `[a, a]` with `a` a shared primitive object the second
reference is emitted as the already-seen sentinel, not as the leaf value
itself — refuting "an identity is recorded only before decomposing a
non-leaf value" and "leaf values are always emitted as themselves". -/
theorem flatten_struct_repeat_cex :
    (flatten_struct [(0, .flist [1, 1]), (1, .fleaf (.vint 5))] 0).map
      Prod.snd = [.val (.vint 5), .seen 1] := by
  rw [flatten_struct]
  rw [show ([(0, FNode.flist [1, 1]),
      (1, FNode.fleaf (PyVal.vint 5))] : Heap).length + 1 = 3 by rfl]
  rw [flattenObj]
  simp only [List.mem_nil_iff, if_false]
  rw [show heapFind [(0, .flist [1, 1]), (1, .fleaf (.vint 5))] 0 =
      some (.flist [1, 1]) by rw [heapFind]; simp]
  simp only
  rw [flattenChildren]
  rw [show flattenObj [(0, .flist [1, 1]), (1, .fleaf (.vint 5))] 2 1 [0] =
      ([(Option.none, .val (.vint 5))], [1, 0]) by
    rw [flattenObj]
    simp [heapFind]]
  simp only
  rw [flattenChildren]
  rw [show flattenObj [(0, .flist [1, 1]), (1, .fleaf (.vint 5))] 2 1 [1, 0] =
      ([(Option.none, .seen 1)], [1, 0]) by
    rw [flattenObj]
    simp]
  simp only
  rw [flattenChildren]
  simp
